import Mathlib

/-!
Verification of the `equiv_struct` pass (src/passes/equiv/equiv_struct.cc).

The pass is embedded shallowly: the RTLIL netlist infrastructure
(kernel/rtlil.h, kernel/sigtools.h) is not part of the analysed source
tree, so its small surface consumed by the pass (signal bits, cells,
modules, the alias canonicalizer, the equivalence map) is modelled from
the spec, while every algorithmic step of the pass itself
(EquivStructWorker, merge_cell_pair, EquivStructPass::execute) is
translated line by line from src/passes/equiv/equiv_struct.cc.
-/

namespace EquivStruct

/-- Modelled from the spec: identifiers (RTLIL::IdString) are plain
strings; public names carry a leading backslash, internal ones a dollar
sign. -/
abbrev IdString := String

/-- Modelled from the spec: a signal bit is either a constant value or a
reference to (wire, bit index) in the graph (RTLIL::SigBit). -/
inductive SigBit where
  | const (v : Nat)
  | wire (name : IdString) (idx : Nat)
deriving DecidableEq, Repr

/-- Modelled from the spec: a signal is an ordered list of signal bits
(RTLIL::SigSpec). -/
abbrev SigSpec := List SigBit

/-- Modelled from the spec: a node ("cell") has a type tag, a mapping of
parameter name to constant value, and a mapping of port name to an
ordered list of signal bits.  The `equivMerged` field models the
set-valued `"\equiv_merged"` provenance attribute (the only attribute the
pass reads or writes). -/
structure Cell where
  name : IdString
  type : IdString
  parameters : List (IdString × Nat)
  connections : List (IdString × SigSpec)
  equivMerged : List String
deriving DecidableEq, Repr

/-- Modelled from the spec: the per-module graph state consumed and
mutated by the pass: the live cells, the accumulated direct connections
(`module->connect(lhs, rhs)` pairs, left side driven by right side), and
a counter backing fresh-name allocation (`NEW_ID`). -/
structure Module where
  cells : List Cell
  conns : List (SigSpec × SigSpec)
  freshCounter : Nat
deriving DecidableEq, Repr

/-- Modelled from the spec: the design context: which cell types name a
module of the design (hierarchical sub-instances), and the input/output
classification of every (cell type, port) pair, both supplied by the
external netlist infrastructure. -/
structure Design where
  moduleNames : List IdString
  isInput : IdString → IdString → Bool
  isOutput : IdString → IdString → Bool

/-- `module->cell(name)`: look a cell up by name. -/
def Module.cellByName (m : Module) (n : IdString) : Option Cell :=
  m.cells.find? (fun c => c.name == n)

/-- `cell->getPort(name)`: look a port's connected signal up by name. -/
def Cell.getPort (c : Cell) (p : IdString) : Option SigSpec :=
  (c.connections.find? (fun pc => pc.1 == p)).map Prod.snd

/-- `cell->output(port)`: port direction test.  Modelled from the spec:
the reserved equivalence-assertion type `$equiv` has exactly the output
port `\Y`; all other types defer to the external design data. -/
def cellOutput (d : Design) (t p : IdString) : Bool :=
  if t == "$equiv" then p == "\\Y" else d.isOutput t p

/-- `cell->input(port)`.  Modelled from the spec: `$equiv` has exactly
the input ports `\A` and `\B`; other types defer to the design data. -/
def cellInput (d : Design) (t p : IdString) : Bool :=
  if t == "$equiv" then (p == "\\A" || p == "\\B") else d.isInput t p

/-- `SigSpec::as_bit()`: read a signal as a single bit; fatal
(`log_assert(GetSize(*this) == 1)`) unless it is exactly one bit wide. -/
def getBit (c : Cell) (p : IdString) : Option SigBit :=
  match c.getPort p with
  | some [b] => some b
  | _ => none

/-- `log_id`: print an identifier, dropping the leading backslash of a
public name (modelled from the spec, external logging helper). -/
def logId (n : IdString) : String :=
  match n.data with
  | '\\' :: r => String.mk r
  | l => String.mk l

/-- Ordered set insertion: `pool<T>::insert` keeps the first insertion
position and ignores duplicates. -/
def insertIfAbsent [DecidableEq α] (l : List α) (x : α) : List α :=
  if x ∈ l then l else l ++ [x]

/-- Fresh identifier allocation (`NEW_ID`), backed by the module's
counter; names live in the reserved `$auto` namespace. -/
def newName (n : Nat) : IdString := "$auto" ++ toString n

/-- Character comparison by code point (external `<` on strings). -/
def charLt (a b : Char) : Bool := decide (a.toNat < b.toNat)

/-- Lexicographic strict order on character lists (external `<` on
strings, used by `std::sort`). -/
def charsLt : List Char → List Char → Bool
  | [], [] => false
  | [], _ :: _ => true
  | _ :: _, [] => false
  | a :: as, b :: bs => charLt a b || (a == b && charsLt as bs)

/-- Non-strict identifier order. -/
def idLe (a b : IdString) : Bool := charsLt a.data b.data || a == b

/-- `operator<` on `pair<IdString, int>` / `pair<IdString, Const>`,
relaxed to non-strict for sorting. -/
def pairLe (x y : IdString × Nat) : Bool :=
  charsLt x.1.data y.1.data || (x.1 == y.1 && decide (x.2 ≤ y.2))

/-- `operator<` on `RTLIL::SigBit`, relaxed to non-strict: constants
order before wires, wires by (name, offset). -/
def sigBitLe (a b : SigBit) : Bool :=
  match a, b with
  | .const v, .const w => decide (v ≤ w)
  | .const _, .wire _ _ => true
  | .wire _ _, .const _ => false
  | .wire n i, .wire n2 i2 => charsLt n.data n2.data || (n == n2 && decide (i ≤ i2))

/-- `operator<` on `tuple<IdString, int, SigBit>`, relaxed to
non-strict. -/
def connLe (x y : IdString × Nat × SigBit) : Bool :=
  charsLt x.1.data y.1.data ||
    (x.1 == y.1 && (decide (x.2.1 < y.2.1) ||
      (x.2.1 == y.2.1 && sigBitLe x.2.2 y.2.2)))

/-- Sorted insertion of one element (helper for `sortBy`). -/
def insertSorted (le : α → α → Bool) (x : α) : List α → List α
  | [] => [x]
  | y :: ys => if le x y then x :: y :: ys else y :: insertSorted le x ys

/-- `std::sort`: stable comparison sort (insertion sort; the comparators
used are total orders, so the sorted result is unique). -/
def sortBy (le : α → α → Bool) : List α → List α
  | [] => []
  | x :: xs => insertSorted le x (sortBy le xs)

/-- `std::sort` on a parameter or port-size vector. -/
def sortPairs (l : List (IdString × Nat)) : List (IdString × Nat) :=
  sortBy pairLe l

/-- `std::sort` on the forward connection digest. -/
def sortConns (l : List (IdString × Nat × SigBit)) :
    List (IdString × Nat × SigBit) :=
  sortBy connLe l

/-- `EquivStructWorker::merge_key_t`: the structural fingerprint of a
cell: type tag, sorted parameter list, sorted port-size list, and a
connection digest (full sorted input digest for forward keys, a single
output-bit tuple for backward keys).  Equality compares all four
components, as `merge_key_t::operator==` does. -/
structure MergeKey where
  type : IdString
  parameters : List (IdString × Nat)
  port_sizes : List (IdString × Nat)
  connections : List (IdString × Nat × SigBit)
deriving DecidableEq, Repr

/-- Sorted parameter list of a cell (lines 162-164). -/
def keyParams (c : Cell) : List (IdString × Nat) :=
  sortPairs c.parameters

/-- Sorted port-size list of a cell (lines 166-168). -/
def keySizes (c : Cell) : List (IdString × Nat) :=
  sortPairs (c.connections.map (fun pc => (pc.1, pc.2.length)))

/-- The unsorted forward connection digest: one `(port, index, canonical
bit)` tuple per input port bit, in port and bit order (lines 170-176). -/
def fwdConnsOf (d : Design) (equivBits : SigBit → SigBit) (c : Cell) :
    List (IdString × Nat × SigBit) :=
  c.connections.flatMap (fun pc =>
    if cellInput d c.type pc.1 then
      (pc.2.map equivBits).enum.map (fun iv => (pc.1, iv.1, iv.2))
    else [])

/-- The forward fingerprint of a cell (lines 189-190). -/
def fwdKeyOf (d : Design) (equivBits : SigBit → SigBit) (c : Cell) : MergeKey :=
  { type := c.type, parameters := keyParams c, port_sizes := keySizes c,
    connections := sortConns (fwdConnsOf d equivBits c) }

/-- The backward fingerprints of a cell: one key per output port bit, in
port and bit order (lines 178-186). -/
def bwdKeysOf (d : Design) (equivBits : SigBit → SigBit) (c : Cell) :
    List MergeKey :=
  c.connections.flatMap (fun pc =>
    if cellOutput d c.type pc.1 then
      (pc.2.map equivBits).enum.map (fun iv =>
        { type := c.type, parameters := keyParams c, port_sizes := keySizes c,
          connections := [(pc.1, iv.1, iv.2)] })
    else [])

/-- The differing canonicalized input bit pairs of (gold, gate): pairs
`(bits_a[i], bits_b[i])` with `bits_a[i] != bits_b[i]` (lines 74-81). -/
def diffBits (sa sb : SigSpec) : List (SigBit × SigBit) :=
  (sa.zip sb).filter (fun pr => ¬ pr.1 = pr.2)

/-- The port-diff loop of `merge_cell_pair` (lines 67-82): walk the gold
cell's ports, read the gate cell's matching port (fatal if absent),
canonicalize both sides, check the width invariant
(`log_assert(GetSize(bits_a) == GetSize(bits_b))`, fatal on mismatch),
and collect differing bit pairs of the non-output ports. -/
def collectDiffsGo (d : Design) (sigmap : SigBit → SigBit) (atype : IdString)
    (b : Cell) : List (IdString × SigSpec) → Option (List (SigBit × SigBit))
  | [] => some []
  | pc :: rest =>
    match b.getPort pc.1 with
    | none => none
    | some sbRaw =>
      let bitsA := pc.2.map sigmap
      let bitsB := sbRaw.map sigmap
      if bitsA.length = bitsB.length then
        match collectDiffsGo d sigmap atype b rest with
        | none => none
        | some tail =>
          if cellOutput d atype pc.1 then some tail
          else some (diffBits bitsA bitsB ++ tail)
      else none

/-- All differing canonicalized input bit pairs of a gold/gate cell
pair, in port order; `none` models the fatal assertions of
`merge_cell_pair` (missing port or width mismatch). -/
def collectDiffs (d : Design) (sigmap : SigBit → SigBit) (a b : Cell) :
    Option (List (SigBit × SigBit)) :=
  collectDiffsGo d sigmap a.type b a.connections

/-- The substitution lookup of the local `merged_map`: a bit that was
registered maps to its fresh `$equiv` output, any other bit is
unchanged. -/
def applySub (sub : List (SigBit × SigBit)) (b : SigBit) : SigBit :=
  match sub.find? (fun pr => pr.1 == b) with
  | some pr => pr.2
  | none => b

/-- `module->addEquiv(NEW_ID, bit_a, bit_b, bit_y)` (line 89): the new
single-bit equivalence-assertion cell. -/
def mkEquivCell (wireName cellName : IdString) (bitA bitB : SigBit) : Cell :=
  { name := cellName, type := "$equiv", parameters := [],
    connections := [("\\A", [bitA]), ("\\B", [bitB]),
                    ("\\Y", [SigBit.wire wireName 0])],
    equivMerged := [] }

/-- Set-union of provenance pools, keeping first-insertion order
(`add_strpool_attribute`). -/
def unionStr (base l : List String) : List String :=
  l.foldl insertIfAbsent base

/-- The local `merged_map` substitution built by the adds of lines
90-91: the k-th differing pair maps both of its bits to the fresh wire
allocated for that pair (line 86; the 2k-th and (2k+1)-th fresh
identifiers of this merge name the wire and the `$equiv` cell). -/
def mergeSub (ctr : Nat) (diffs : List (SigBit × SigBit)) : List (SigBit × SigBit) :=
  diffs.enum.flatMap (fun ipr =>
    let yw := SigBit.wire (newName (ctr + 2 * ipr.1)) 0
    [(ipr.2.1, yw), (ipr.2.2, yw)])

/-- The fresh `$equiv` cells inserted by the loop of lines 84-92: one
per differing bit pair, with A the gold bit, B the gate bit, Y the fresh
wire. -/
def newEquivCells (ctr : Nat) (diffs : List (SigBit × SigBit)) : List Cell :=
  diffs.enum.map (fun ipr =>
    mkEquivCell (newName (ctr + 2 * ipr.1)) (newName (ctr + 2 * ipr.1 + 1))
      ipr.2.1 ipr.2.2)

/-- The gold cell after `merge_cell_pair`: input ports rewritten through
`merged_map(sigmap(...))` (lines 102-103), outputs untouched, and the
provenance pool extended with the gate cell's pool plus its printed name
(lines 111-113). -/
def mergedGold (d : Design) (sigmap : SigBit → SigBit) (ctr : Nat)
    (a b : Cell) (diffs : List (SigBit × SigBit)) : Cell :=
  { a with
    connections := a.connections.map (fun pc =>
      if cellOutput d a.type pc.1 then pc
      else (pc.1, pc.2.map (fun bb => applySub (mergeSub ctr diffs) (sigmap bb)))),
    equivMerged :=
      unionStr a.equivMerged (insertIfAbsent b.equivMerged (logId b.name)) }

/-- The `module->connect(sig_b, sig_a)` pairs of lines 105-109: for
every output port, the gate cell's signal becomes driven by the gold
cell's signal. -/
def gateConns (d : Design) (a b : Cell) : List (SigSpec × SigSpec) :=
  (a.connections.filter (fun pc => cellOutput d a.type pc.1)).map
    (fun pc => ((b.getPort pc.1).getD [], pc.2))

/-- `EquivStructWorker::merge_cell_pair` (lines 59-115): diff the two
cells' canonicalized inputs, insert one fresh wire and one fresh
`$equiv` cell per differing bit, rewrite the gold cell's input ports
through the local substitution, connect the gate cell's outputs to be
driven by the gold cell's outputs, merge the provenance attribute, and
remove the gate cell.  `none` models the fatal assertions. -/
def mergeCellPair (d : Design) (sigmap : SigBit → SigBit) (m : Module)
    (goldName gateName : IdString) : Option Module :=
  match m.cellByName goldName, m.cellByName gateName with
  | some a, some b =>
    match collectDiffs d sigmap a b with
    | none => none
    | some diffs =>
      some { cells := ((m.cells.map (fun c =>
               if c.name == goldName then
                 mergedGold d sigmap m.freshCounter a b diffs
               else c)).filter (fun c => !(c.name == gateName))) ++
               newEquivCells m.freshCounter diffs,
             conns := m.conns ++ gateConns d a b,
             freshCounter := m.freshCounter + 2 * diffs.length }
  | _, _ => none

/-- The observable log events of one worker iteration: one per purged
`$equiv` cell (line 145) and one per merged cell pair, tagged with the
phase that performed it (line 221: `Fwd` = 0, `Bwd` = 1). -/
inductive Event where
  | purged (cell : IdString)
  | merged (phase : Nat) (gold gate : IdString)
deriving DecidableEq, Repr

/-- State accumulated by the first worker scan (lines 123-137): the
`equiv_bits.add(sig_b, sig_a)` pairs, the `equiv_inputs` pool of
canonical operand bits, and the `cells` pool of candidate cell names. -/
structure ScanState where
  pairs : List (SigBit × SigBit)
  inputs : List SigBit
  names : List IdString
deriving DecidableEq, Repr

/-- The first worker scan (lines 126-137): for every `$equiv` cell read
the single-bit `\A` and `\B` ports (fatal on multi-bit), record the
canonical operand pair and the operands, and add the cell as candidate;
every other cell is a candidate iff `-icells` is set or its type names a
design module. -/
def scanEquivs (d : Design) (sigmap : SigBit → SigBit) (mi : Bool) :
    List Cell → ScanState → Option ScanState
  | [], st => some st
  | c :: rest, st =>
    if c.type == "$equiv" then
      match getBit c "\\A", getBit c "\\B" with
      | some ab, some bb =>
        let sa := sigmap ab
        let sb := sigmap bb
        scanEquivs d sigmap mi rest
          { pairs := st.pairs ++ [(sb, sa)],
            inputs := insertIfAbsent (insertIfAbsent st.inputs sa) sb,
            names := insertIfAbsent st.names c.name }
      | _, _ => none
    else
      if mi || d.moduleNames.contains c.type then
        scanEquivs d sigmap mi rest { st with names := insertIfAbsent st.names c.name }
      else
        scanEquivs d sigmap mi rest st

/-- Modelled from the spec: the equivalence map (a `SigMap` seeded with
the module aliases and extended with operand-2 to operand-1 pairs)
canonicalizes by following recorded pairs; bounded chasing stands in for
the external union-find. -/
def chase (pairs : List (SigBit × SigBit)) : Nat → SigBit → SigBit
  | 0, b => b
  | fuel + 1, b =>
    match pairs.find? (fun pr => pr.1 == b) with
    | some pr => chase pairs fuel pr.2
    | none => b

/-- The purge scan (lines 139-149): an `$equiv` cell whose canonical
`\A` and `\B` operands are equal and whose canonical `\Y` bit is in the
`equiv_inputs` pool is removed and counted; everything else is kept
unchanged.  All three ports are read as single bits (fatal on
multi-bit). -/
def purgeStep (sigmap : SigBit → SigBit) (inputs : List SigBit) :
    List Cell → Option (List Cell × Nat × List Event)
  | [] => some ([], 0, [])
  | c :: rest =>
    if c.type == "$equiv" then
      match getBit c "\\A", getBit c "\\B", getBit c "\\Y" with
      | some ab, some bb, some yb =>
        match purgeStep sigmap inputs rest with
        | none => none
        | some (kept, n, lg) =>
          if sigmap ab = sigmap bb ∧ sigmap yb ∈ inputs then
            some (kept, n + 1, Event.purged c.name :: lg)
          else
            some (c :: kept, n, lg)
      | _, _, _ => none
    else
      match purgeStep sigmap inputs rest with
      | none => none
      | some (kept, n, lg) => some (c :: kept, n, lg)

/-- The shared fingerprint table and the two phase queues (lines 56-57):
`merge_cache` maps a fingerprint to the pool of cell names inserted
under it; `fwd_merge_cache` and `bwd_merge_cache` queue fingerprints
seen at least twice. -/
structure BuildState where
  cache : List (MergeKey × List IdString)
  fwdQ : List MergeKey
  bwdQ : List MergeKey
deriving DecidableEq, Repr

/-- `merge_cache[key].insert(cell_name)`: insert a name under a key,
creating the entry if needed, keeping insertion order, ignoring
duplicates. -/
def cacheInsert (cache : List (MergeKey × List IdString)) (k : MergeKey)
    (n : IdString) : List (MergeKey × List IdString) :=
  match cache with
  | [] => [(k, [n])]
  | (k', ns) :: rest =>
    if k' = k then (k', insertIfAbsent ns n) :: rest
    else (k', ns) :: cacheInsert rest k n

/-- `merge_cache[key]` lookup (empty when absent). -/
def cacheNames (cache : List (MergeKey × List IdString)) (k : MergeKey) :
    List IdString :=
  ((cache.find? (fun pr => pr.1 == k)).map Prod.snd).getD []

/-- `merge_cache.count(key)`. -/
def cacheHas (cache : List (MergeKey × List IdString)) (k : MergeKey) : Bool :=
  (cache.find? (fun pr => pr.1 == k)).isSome

/-- Lines 183-185: queue a backward key iff it was already present, then
insert the name under it. -/
def stInsertBwd (st : BuildState) (k : MergeKey) (n : IdString) : BuildState :=
  { st with
    bwdQ := if cacheHas st.cache k then insertIfAbsent st.bwdQ k else st.bwdQ,
    cache := cacheInsert st.cache k n }

/-- Lines 192-194: queue a forward key iff it was already present, then
insert the name under it. -/
def stInsertFwd (st : BuildState) (k : MergeKey) (n : IdString) : BuildState :=
  { st with
    fwdQ := if cacheHas st.cache k then insertIfAbsent st.fwdQ k else st.fwdQ,
    cache := cacheInsert st.cache k n }

/-- Key construction for one candidate cell (lines 154-195): insert its
backward keys in port/bit order, then its forward key. -/
def buildKeysCell (d : Design) (equivBits : SigBit → SigBit)
    (st : BuildState) (c : Cell) : BuildState :=
  let st1 := (bwdKeysOf d equivBits c).foldl (fun st k => stInsertBwd st k c.name) st
  stInsertFwd st1 (fwdKeyOf d equivBits c) c.name

/-- Key construction over all candidate names (fatal if a candidate name
does not resolve to a live cell). -/
def buildKeys (d : Design) (equivBits : SigBit → SigBit) (m : Module) :
    List IdString → BuildState → Option BuildState
  | [], st => some st
  | n :: rest, st =>
    match m.cellByName n with
    | none => none
    | some c => buildKeys d equivBits m rest (buildKeysCell d equivBits st c)

/-- Line 210: a conventional gold name is longer than five characters
and ends in `_gold`. -/
def isGoldName (n : IdString) : Bool :=
  decide (5 < n.data.length) &&
    n.data.drop (n.data.length - 5) == "_gold".data

/-- Representative selection (lines 206-214): first live member, but any
later member with a gold name takes over. -/
def selectGold (live : List Cell) : Option Cell :=
  live.foldl (fun g c =>
    match g with
    | none => some c
    | some g0 => if isGoldName c.name then some c else some g0) none

/-- Lines 219-223: merge every gate cell of a group into the chosen
representative, left to right, counting and logging each merge. -/
def mergeAll (d : Design) (sigmap : SigBit → SigBit) (phase : Nat)
    (goldName : IdString) : Module → List Cell → Option (Module × Nat × List Event)
  | m, [] => some (m, 0, [])
  | m, g :: rest =>
    match mergeCellPair d sigmap m goldName g.name with
    | none => none
    | some m' =>
      match mergeAll d sigmap phase goldName m' rest with
      | none => none
      | some (m2, n, lg) =>
        some (m2, n + 1, Event.merged phase goldName g.name :: lg)

/-- Processing of one queued fingerprint (lines 201-224): validate the
member names against the live graph, skip groups with fewer than two
live members, select the representative, merge the rest into it. -/
def processKey (d : Design) (sigmap : SigBit → SigBit) (phase : Nat)
    (m : Module) (names : List IdString) : Option (Module × Nat × List Event) :=
  let live := names.filterMap m.cellByName
  if live.length < 2 then some (m, 0, [])
  else
    match selectGold live with
    | none => some (m, 0, [])
    | some gold =>
      mergeAll d sigmap phase gold.name m
        (live.filter (fun c => ¬ c.name == gold.name))

/-- One phase (lines 197-224 inner loop): process every queued
fingerprint in order, threading the module state and accumulating the
mutation count and log. -/
def runPhase (d : Design) (sigmap : SigBit → SigBit) (phase : Nat)
    (cache : List (MergeKey × List IdString)) :
    List MergeKey → Module → Option (Module × Nat × List Event)
  | [], m => some (m, 0, [])
  | k :: ks, m =>
    match processKey d sigmap phase m (cacheNames cache k) with
    | none => none
    | some (m1, n1, l1) =>
      match runPhase d sigmap phase cache ks m1 with
      | none => none
      | some (m2, n2, l2) => some (m2, n1 + n2, l1 ++ l2)

/-- `EquivStructWorker::EquivStructWorker` (lines 117-231): one full
iteration.  Build the equivalence map and candidate set, purge redundant
`$equiv` cells (returning immediately on any purge), build the
fingerprint table and queues, then run the forward phase (0) and — only
if it merged nothing — the backward phase (1), returning after the first
phase with a nonzero count.  The `mode_fwd` flag is stored by the source
constructor but never read, and is accordingly unused here.  Returns
the mutated module, the mutation count, and the event log; `none`
models a fatal assertion. -/
def workerFn (d : Design) (sigmapOf : Module → SigBit → SigBit) (m : Module)
    ( mode_fwd mode_icells : Bool) : Option (Module × Nat × List Event) :=
  let sigmap := sigmapOf m
  match scanEquivs d sigmap mode_icells m.cells ⟨[], [], []⟩ with
  | none => none
  | some st =>
    match purgeStep sigmap st.inputs m.cells with
    | none => none
    | some (kept, pc, plog) =>
      if 0 < pc then some ({ m with cells := kept }, pc, plog)
      else
        let equivBits := fun b => chase st.pairs st.pairs.length (sigmap b)
        match buildKeys d equivBits m st.names ⟨[], [], []⟩ with
        | none => none
        | some bs =>
          match runPhase d sigmap 0 bs.cache bs.fwdQ m with
          | none => none
          | some (m1, c1, l1) =>
            if 0 < c1 then some (m1, c1, l1)
            else
              match runPhase d sigmap 1 bs.cache bs.bwdQ m1 with
              | none => none
              | some (m2, c2, l2) => some (m2, c2, l1 ++ l2)

/-- `EquivStructPass::execute` per-module fixpoint loop (lines 280-287):
instantiate workers until one reports a zero mutation count; `sigmapOf`
is the external alias-canonicalizer builder invoked on the current
module state at each iteration.  Explicit fuel bounds the loop; `none`
means the fuel ran out or a worker hit a fatal assertion. -/
def executePass (d : Design) (sigmapOf : Module → SigBit → SigBit)
    ( mode_fwd mode_icells : Bool) : Nat → Module → Option Module
  | 0, _ => none
  | fuel + 1, m =>
    match workerFn d sigmapOf m mode_fwd mode_icells with
    | none => none
    | some (m', c, _) =>
      if c = 0 then some m'
      else executePass d sigmapOf mode_fwd mode_icells fuel m'

/-! ## Concrete instances -/

/-- The trivial alias canonicalizer (a module with no wire aliasing). -/
def idSig : Module → SigBit → SigBit := fun _ b => b

/-- Single-bit wire shorthand. -/
def bit (s : String) : SigBit := .wire s 0

/-- A design with one single-input, single-output hierarchical type `\T`
(ports `\A` in, `\Y` out). -/
def designT : Design :=
  { moduleNames := ["\\T"],
    isInput := fun _ p => p == "\\A",
    isOutput := fun _ p => p == "\\Y" }

/-- A design with two hierarchical types `\TA` and `\TB` of the same
port shape. -/
def designAB : Design :=
  { moduleNames := ["\\TA", "\\TB"],
    isInput := fun _ p => p == "\\A",
    isOutput := fun _ p => p == "\\Y" }

/-- C1 input: two `\T` instances with different inputs whose outputs are
asserted equivalent by an `$equiv` cell, so only a backward merge can
fire. -/
def c1module : Module :=
  { cells := [
      { name := "\\c1", type := "\\T", parameters := [],
        connections := [("\\A", [bit "\\x"]), ("\\Y", [bit "\\o1"])],
        equivMerged := [] },
      { name := "\\c2", type := "\\T", parameters := [],
        connections := [("\\A", [bit "\\z"]), ("\\Y", [bit "\\o2"])],
        equivMerged := [] },
      { name := "\\e", type := "$equiv", parameters := [],
        connections := [("\\A", [bit "\\o1"]), ("\\B", [bit "\\o2"]),
                        ("\\Y", [bit "\\u"])],
        equivMerged := [] }],
    conns := [], freshCounter := 0 }

/-- C2 input: two `\T` instances whose two input bits are pairwise
asserted equivalent; the forward merge removes one cell but inserts two
fresh `$equiv` cells, growing the module from 4 to 5 cells. -/
def c2module : Module :=
  { cells := [
      { name := "\\e1", type := "$equiv", parameters := [],
        connections := [("\\A", [bit "\\x1"]), ("\\B", [bit "\\y1"]),
                        ("\\Y", [bit "\\u1"])], equivMerged := [] },
      { name := "\\e2", type := "$equiv", parameters := [],
        connections := [("\\A", [bit "\\x2"]), ("\\B", [bit "\\y2"]),
                        ("\\Y", [bit "\\u2"])], equivMerged := [] },
      { name := "\\c1", type := "\\T", parameters := [],
        connections := [("\\A", [bit "\\x1", bit "\\x2"]), ("\\Y", [bit "\\o1"])],
        equivMerged := [] },
      { name := "\\c2", type := "\\T", parameters := [],
        connections := [("\\A", [bit "\\y1", bit "\\y2"]), ("\\Y", [bit "\\o2"])],
        equivMerged := [] }],
    conns := [], freshCounter := 0 }

/-- C3 input: two unrelated duplicate pairs (`\TA` and `\TB`), giving
two distinct forward fingerprint groups that both merge in a single
iteration. -/
def c3module : Module :=
  { cells := [
      { name := "\\a1", type := "\\TA", parameters := [],
        connections := [("\\A", [bit "\\x"]), ("\\Y", [bit "\\p1"])],
        equivMerged := [] },
      { name := "\\a2", type := "\\TA", parameters := [],
        connections := [("\\A", [bit "\\x"]), ("\\Y", [bit "\\p2"])],
        equivMerged := [] },
      { name := "\\b1", type := "\\TB", parameters := [],
        connections := [("\\A", [bit "\\x"]), ("\\Y", [bit "\\q1"])],
        equivMerged := [] },
      { name := "\\b2", type := "\\TB", parameters := [],
        connections := [("\\A", [bit "\\x"]), ("\\Y", [bit "\\q2"])],
        equivMerged := [] }],
    conns := [], freshCounter := 0 }

/-- C4 input: a single `$equiv` cell whose operands and output all
canonicalize to the same wire; no other assertion exists, yet the purge
scan removes it because `equiv_inputs` contains the cell's own
operands. -/
def c4module : Module :=
  { cells := [
      { name := "\\e", type := "$equiv", parameters := [],
        connections := [("\\A", [bit "\\w"]), ("\\B", [bit "\\w"]),
                        ("\\Y", [bit "\\w"])], equivMerged := [] }],
    conns := [], freshCounter := 0 }

/-! ## Helper lemmas -/

/-- The exact condition under which the purge scan (lines 139-149)
removes an `$equiv` cell, as a checkable predicate: the two canonical
operands are equal and the canonical output bit is in the collected
operand pool. -/
def purgeCond (sigmap : SigBit → SigBit) (inputs : List SigBit) (c : Cell) : Bool :=
  c.type == "$equiv" &&
    match getBit c "\\A", getBit c "\\B", getBit c "\\Y" with
    | some ab, some bb, some yb => decide (sigmap ab = sigmap bb ∧ sigmap yb ∈ inputs)
    | _, _, _ => false

theorem length_filter_split (l : List α) (p : α → Bool) :
    (l.filter p).length + (l.filter (fun x => !(p x))).length = l.length := by
  induction l with
  | nil => simp
  | cons a t ih =>
    by_cases h : p a
    · simp [List.filter_cons, h]; omega
    · simp [List.filter_cons, h]; omega

theorem purgeStep_characterization (sigmap : SigBit → SigBit)
    (inputs : List SigBit) :
    ∀ (cells : List Cell) (kept : List Cell) (n : Nat) (lg : List Event),
      purgeStep sigmap inputs cells = some (kept, n, lg) →
      kept = cells.filter (fun c => !(purgeCond sigmap inputs c)) ∧
      n = (cells.filter (purgeCond sigmap inputs)).length ∧
      lg = (cells.filter (purgeCond sigmap inputs)).map (fun c => Event.purged c.name)
  | [], kept, n, lg => by
    intro h
    simp only [purgeStep, Option.some.injEq, Prod.mk.injEq] at h
    simp [← h.1, ← h.2.1, ← h.2.2]
  | c :: rest, kept, n, lg => by
    intro h
    simp only [purgeStep] at h
    by_cases hty : (c.type == "$equiv") = true
    · rw [if_pos hty] at h
      cases hA : getBit c "\\A" with
      | none => simp [hA] at h
      | some ab =>
        cases hB : getBit c "\\B" with
        | none => simp [hA, hB] at h
        | some bb =>
          cases hY : getBit c "\\Y" with
          | none => simp [hA, hB, hY] at h
          | some yb =>
            simp only [hA, hB, hY] at h
            cases hrest : purgeStep sigmap inputs rest with
            | none => simp [hrest] at h
            | some r =>
              obtain ⟨kept0, n0, lg0⟩ := r
              have ih := purgeStep_characterization sigmap inputs rest kept0 n0 lg0 hrest
              simp only [hrest] at h
              by_cases hcond : sigmap ab = sigmap bb ∧ sigmap yb ∈ inputs
              · rw [if_pos hcond] at h
                simp only [Option.some.injEq, Prod.mk.injEq] at h
                have hpc : purgeCond sigmap inputs c = true := by
                  simp [purgeCond, hty, hA, hB, hY, hcond]
                simp [← h.1, ← h.2.1, ← h.2.2, List.filter_cons, hpc,
                  ih.1, ih.2.1, ih.2.2]
              · rw [if_neg hcond] at h
                simp only [Option.some.injEq, Prod.mk.injEq] at h
                have hpc : purgeCond sigmap inputs c = false := by
                  simp [purgeCond, hA, hB, hY]
                  intro h1 h2
                  exact fun h3 => hcond ⟨h2, h3⟩
                simp [← h.1, ← h.2.1, ← h.2.2, List.filter_cons, hpc,
                  ih.1, ih.2.1, ih.2.2]
    · rw [if_neg hty] at h
      cases hrest : purgeStep sigmap inputs rest with
      | none => simp [hrest] at h
      | some r =>
        obtain ⟨kept0, n0, lg0⟩ := r
        have ih := purgeStep_characterization sigmap inputs rest kept0 n0 lg0 hrest
        simp only [hrest, Option.some.injEq, Prod.mk.injEq] at h
        have hpc : purgeCond sigmap inputs c = false := by
          simp [purgeCond, hty]
        simp [← h.1, ← h.2.1, ← h.2.2, List.filter_cons, hpc,
          ih.1, ih.2.1, ih.2.2]

/-- The purge scan never grows the cell list: kept + removed = total. -/
theorem purgeStep_length (sigmap : SigBit → SigBit) (inputs : List SigBit)
    (cells kept : List Cell) (n : Nat) (lg : List Event)
    (h : purgeStep sigmap inputs cells = some (kept, n, lg)) :
    kept.length + n = cells.length := by
  obtain ⟨h1, h2, -⟩ := purgeStep_characterization sigmap inputs cells kept n lg h
  subst h1; subst h2
  have := length_filter_split cells (purgeCond sigmap inputs)
  omega

theorem find_name_keeps (f : Cell → Cell) (nm : IdString) :
    ∀ (l : List Cell), (∀ c ∈ l, (f c).name = c.name) →
      (l.map Cell.name).Nodup →
      (l.find? (fun c => c.name == nm)).isSome →
      ((l.map f).filter (fun c => !(c.name == nm))).length + 1 = l.length
  | [] => by intro _ _ hf; simp [List.find?] at hf
  | c :: rest => by
    intro hf hnd hfind
    have hnd' := hnd
    rw [List.map_cons, List.nodup_cons] at hnd'
    by_cases h : (c.name == nm) = true
    · have hcnm : c.name = nm := by simpa using h
      have hrest : ∀ x ∈ rest.map f, (!(x.name == nm)) = true := by
        intro x hx
        obtain ⟨c', hc', rfl⟩ := List.mem_map.mp hx
        have hfc : (f c').name = c'.name := hf c' (List.mem_cons_of_mem _ hc')
        have hne : c'.name ≠ nm := by
          intro he
          exact hnd'.1 (by rw [hcnm, ← he]; exact List.mem_map_of_mem _ hc')
        simp [hfc, hne]
      have hkeep : (rest.map f).filter (fun c => !(c.name == nm)) = rest.map f :=
        List.filter_eq_self.mpr hrest
      have hfc : (f c).name = c.name := hf c (List.mem_cons_self _ _)
      simp [List.map_cons, List.filter_cons, hfc, hcnm, hkeep]
    · have hfind' : (rest.find? (fun c => c.name == nm)).isSome := by
        rw [List.find?_cons] at hfind
        split at hfind
        · exact absurd (by assumption) h
        · exact hfind
      have ih := find_name_keeps f nm rest
        (fun c hc => hf c (List.mem_cons_of_mem _ hc)) hnd'.2 hfind'
      have hfc : (f c).name = c.name := hf c (List.mem_cons_self _ _)
      have hfalse : (c.name == nm) = false := by simpa using h
      simp only [List.map_cons, List.filter_cons, hfc, hfalse, Bool.not_false,
        if_true, List.length_cons]
      omega

theorem insertSorted_perm (le : α → α → Bool) (x : α) :
    ∀ (l : List α), (insertSorted le x l).Perm (x :: l)
  | [] => List.Perm.refl _
  | y :: ys => by
    unfold insertSorted
    by_cases h : (le x y) = true
    · rw [if_pos h]
    · rw [if_neg h]
      exact ((insertSorted_perm le x ys).cons y).trans (List.Perm.swap x y ys)

theorem sortBy_perm (le : α → α → Bool) :
    ∀ (l : List α), (sortBy le l).Perm l
  | [] => List.Perm.refl _
  | x :: xs =>
    (insertSorted_perm le x (sortBy le xs)).trans ((sortBy_perm le xs).cons x)

theorem find_nodup_keys [DecidableEq β] :
    ∀ (l : List (IdString × β)) (p : IdString) (s : β),
      (l.map Prod.fst).Nodup → (p, s) ∈ l →
      l.find? (fun e => e.1 == p) = some (p, s)
  | [], p, s => by intro _ hmem; simp at hmem
  | (q, t) :: rest, p, s => by
    intro hnd hmem
    rw [List.map_cons, List.nodup_cons] at hnd
    by_cases h : (q == p) = true
    · have hqp : q = p := by simpa using h
      rw [List.find?_cons_of_pos _ (by simpa using h)]
      rcases List.mem_cons.mp hmem with heq | hrest
      · exact (congrArg some heq).symm
      · exfalso
        apply hnd.1
        have hin : p ∈ rest.map Prod.fst := by
          simpa using List.mem_map_of_mem Prod.fst hrest
        rw [hqp]
        exact hin
    · rw [List.find?_cons_of_neg _ (by simpa using h)]
      rcases List.mem_cons.mp hmem with heq | hrest
      · exfalso
        have hpq : p = q := by simpa using congrArg Prod.fst heq
        exact h (by simp [beq_iff_eq, hpq])
      · exact find_nodup_keys rest p s hnd.2 hrest

theorem diffBits_self : ∀ (l : SigSpec), diffBits l l = []
  | [] => rfl
  | x :: xs => by
    have ih := diffBits_self xs
    simp [diffBits] at ih ⊢
    exact ih

/-- Characterization of the port-diff loop under the width invariant:
it succeeds and returns the concatenation of the per-input-port bit
diffs. -/
theorem collectDiffsGo_eq (d : Design) (sigmap : SigBit → SigBit)
    (atype : IdString) (b : Cell) :
    ∀ (l : List (IdString × SigSpec)),
      (∀ pc ∈ l, ∃ s', b.getPort pc.1 = some s' ∧ s'.length = pc.2.length) →
      collectDiffsGo d sigmap atype b l =
        some (l.flatMap (fun pc =>
          if cellOutput d atype pc.1 then []
          else diffBits (pc.2.map sigmap) (((b.getPort pc.1).getD []).map sigmap)))
  | [] => by intro _; rfl
  | pc :: rest => by
    intro h
    obtain ⟨s', hgp, hlen⟩ := h pc (List.mem_cons_self _ _)
    have ih := collectDiffsGo_eq d sigmap atype b rest
      (fun pc' hpc' => h pc' (List.mem_cons_of_mem _ hpc'))
    simp only [collectDiffsGo, hgp, List.length_map, hlen, if_pos, ih,
      List.flatMap_cons]
    by_cases hout : (cellOutput d atype pc.1) = true
    · rw [if_pos hout, if_pos hout]
      simp
    · rw [if_neg hout, if_neg hout]
      simp [hgp]

theorem collectDiffs_eq (d : Design) (sigmap : SigBit → SigBit) (a b : Cell)
    (h : ∀ pc ∈ a.connections,
      ∃ s', b.getPort pc.1 = some s' ∧ s'.length = pc.2.length) :
    collectDiffs d sigmap a b =
      some (a.connections.flatMap (fun pc =>
        if cellOutput d a.type pc.1 then []
        else diffBits (pc.2.map sigmap) (((b.getPort pc.1).getD []).map sigmap))) :=
  collectDiffsGo_eq d sigmap a.type b a.connections h

theorem flatMap_all_nil {α β : Type} (f : α → List β) :
    ∀ (l : List α), (∀ x ∈ l, f x = []) → l.flatMap f = []
  | [] => by intro _; rfl
  | x :: xs => by
    intro h
    rw [List.flatMap_cons, h x (List.mem_cons_self _ _),
      flatMap_all_nil f xs (fun y hy => h y (List.mem_cons_of_mem _ hy))]
    rfl

theorem flatMap_single_key {β : Type} (f : (IdString × SigSpec) → List β)
    (p₀ : IdString) (out : List β) :
    ∀ (l : List (IdString × SigSpec)),
      (∀ pc ∈ l, pc.1 ≠ p₀ → f pc = []) →
      (∀ pc ∈ l, pc.1 = p₀ → f pc = out) →
      p₀ ∈ l.map Prod.fst → (l.map Prod.fst).Nodup →
      l.flatMap f = out
  | [] => by intro _ _ hmem; simp at hmem
  | pc :: rest => by
    intro hne heq hmem hnd
    rw [List.map_cons, List.nodup_cons] at hnd
    by_cases h : pc.1 = p₀
    · have hrest : rest.flatMap f = [] := by
        apply flatMap_all_nil
        intro x hx
        apply hne x (List.mem_cons_of_mem _ hx)
        intro hxp
        exact hnd.1 (h ▸ hxp ▸ List.mem_map_of_mem Prod.fst hx)
      rw [List.flatMap_cons, heq pc (List.mem_cons_self _ _) h, hrest]
      simp
    · have hmem' : p₀ ∈ rest.map Prod.fst := by
        rw [List.map_cons] at hmem
        rcases List.mem_cons.mp hmem with h1 | h2
        · exact absurd h1.symm h
        · exact h2
      rw [List.flatMap_cons, hne pc (List.mem_cons_self _ _) h]
      rw [flatMap_single_key f p₀ out rest
        (fun x hx => hne x (List.mem_cons_of_mem _ hx))
        (fun x hx => heq x (List.mem_cons_of_mem _ hx)) hmem' hnd.2]
      rfl

/-- `applySub` over the two-entry substitution of a single differing
pair: both recorded bits go to the fresh wire, anything else is kept. -/
theorem applySub_pair (x y yw v : SigBit) :
    applySub [(x, yw), (y, yw)] v = if v = x ∨ v = y then yw else v := by
  by_cases hx : v = x
  · subst hx
    simp [applySub, List.find?]
  · have hxv : (x == v) = false := by
      simp [beq_iff_eq]
      exact fun h => hx h.symm
    by_cases hy : v = y
    · subst hy
      simp [applySub, List.find?, hxv]
    · have hyv : (y == v) = false := by
        simp [beq_iff_eq]
        exact fun h => hy h.symm
      simp [applySub, List.find?, hxv, hyv, hx, hy]

/-! ## Claim theorems -/

/-- C1: the claim says that with `-fwd` set the backward phase (phase 1)
is skipped and no backward merge is ever performed.  In the code
`mode_fwd` is stored by the worker constructor (line 117-119) but never
read, so the phase loop (line 197) always runs both phases: on
`c1module` the worker performs a phase-1 (`Bwd`) merge although
`mode_fwd = true`, and its result is identical to the `mode_fwd = false`
run.  This contradicts the pass's own help text ("with this option set
only forward sweeps are performed", lines 248-252): the flag is a
no-op. -/
theorem c1_fwd_flag_is_noop :
    (workerFn designT idSig c1module true false).map (fun r => (r.2.1, r.2.2)) =
      some (1, [Event.merged 1 "\\c1" "\\c2"]) ∧
    workerFn designT idSig c1module true false =
      workerFn designT idSig c1module false false :=
  ⟨rfl, rfl⟩

/-- C2 counterexample: an iteration reporting mutation count 1 grows the
live cell count from 4 to 5 (the merge of two cells whose inputs differ
in two canonicalized bits removes one cell but inserts two fresh
`$equiv` cells), so a nonzero mutation count does not strictly reduce
the number of live cells. -/
theorem c2_counterexample :
    (workerFn designT idSig c2module false false).map
        (fun r => (r.2.1, r.1.cells.length)) = some (1, 5) ∧
    c2module.cells.length = 4 :=
  ⟨rfl, rfl⟩

/-- C2 amended: an iteration's mutations are cell-local but not
monotone.  The purge scan removes exactly its mutation count worth of
cells (`kept + n = total`), and each `merge_cell_pair` call removes
exactly one cell while inserting one fresh `$equiv` cell per differing
canonicalized input bit (`|cells'| + 1 = |cells| + |diffs|`).  With two
or more differing bits the live cell count grows, so a nonzero mutation
count does not imply a strict decrease of live cells and the O(F) bound
on non-empty iterations does not follow from cell-count decrease
(refuted concretely by `c2_counterexample`). -/
theorem c2_amended_mutation_counts :
    (∀ (sigmap : SigBit → SigBit) (inputs : List SigBit)
       (cells kept : List Cell) (n : Nat) (lg : List Event),
       purgeStep sigmap inputs cells = some (kept, n, lg) →
       kept.length + n = cells.length) ∧
    (∀ (d : Design) (sigmap : SigBit → SigBit) (m m' : Module)
       (gn tn : IdString) (a b : Cell) (diffs : List (SigBit × SigBit)),
       (m.cells.map Cell.name).Nodup →
       m.cellByName gn = some a →
       m.cellByName tn = some b →
       collectDiffs d sigmap a b = some diffs →
       mergeCellPair d sigmap m gn tn = some m' →
       m'.cells.length + 1 = m.cells.length + diffs.length) := by
  constructor
  · exact fun sigmap inputs cells kept n lg h =>
      purgeStep_length sigmap inputs cells kept n lg h
  · intro d sigmap m m' gn tn a b diffs hnd ha hb hdiffs hmerge
    simp only [mergeCellPair, ha, hb, hdiffs] at hmerge
    have hm := Option.some.inj hmerge
    subst hm
    have haname : a.name = gn := by
      have := List.find?_some ha
      simpa using this
    have hfnames : ∀ c ∈ m.cells,
        ((fun c => if c.name == gn then
            mergedGold d sigmap m.freshCounter a b diffs else c) c).name
          = c.name := by
      intro c _
      by_cases hc : (c.name == gn) = true
      · have hcn : c.name = gn := by simpa using hc
        simp [hc, mergedGold, haname, hcn]
      · simp [hc]
    have hfilter := find_name_keeps
      (fun c => if c.name == gn then mergedGold d sigmap m.freshCounter a b diffs else c)
      tn m.cells hfnames hnd (by rw [Module.cellByName] at hb; rw [hb]; rfl)
    simp only [List.length_append, newEquivCells, List.length_map, List.enum_length]
    omega

/-- The trivial alias canonicalizer on bits. -/
def idBit : SigBit → SigBit := fun b => b

/-- A self-referential `$equiv` cell used to exercise the purge scan. -/
def purgeDemoCell : Cell :=
  { name := "\\pe", type := "$equiv", parameters := [],
    connections := [("\\A", [bit "\\w"]), ("\\B", [bit "\\w"]),
                    ("\\Y", [bit "\\w"])], equivMerged := [] }

/-- The gold cell of `c2module`. -/
def c2goldCell : Cell :=
  { name := "\\c1", type := "\\T", parameters := [],
    connections := [("\\A", [bit "\\x1", bit "\\x2"]), ("\\Y", [bit "\\o1"])],
    equivMerged := [] }

/-- The gate cell of `c2module`. -/
def c2gateCell : Cell :=
  { name := "\\c2", type := "\\T", parameters := [],
    connections := [("\\A", [bit "\\y1", bit "\\y2"]), ("\\Y", [bit "\\o2"])],
    equivMerged := [] }

/-- The module produced by merging `\c2` into `\c1` in `c2module`: the
gate cell is gone and two fresh `$equiv` cells appeared. -/
def c2mergedModule : Module :=
  { cells := [
      { name := "\\e1", type := "$equiv", parameters := [],
        connections := [("\\A", [bit "\\x1"]), ("\\B", [bit "\\y1"]),
                        ("\\Y", [bit "\\u1"])], equivMerged := [] },
      { name := "\\e2", type := "$equiv", parameters := [],
        connections := [("\\A", [bit "\\x2"]), ("\\B", [bit "\\y2"]),
                        ("\\Y", [bit "\\u2"])], equivMerged := [] },
      { name := "\\c1", type := "\\T", parameters := [],
        connections := [("\\A", [.wire "$auto0" 0, .wire "$auto2" 0]),
                        ("\\Y", [bit "\\o1"])],
        equivMerged := ["c2"] },
      { name := "$auto1", type := "$equiv", parameters := [],
        connections := [("\\A", [bit "\\x1"]), ("\\B", [bit "\\y1"]),
                        ("\\Y", [.wire "$auto0" 0])], equivMerged := [] },
      { name := "$auto3", type := "$equiv", parameters := [],
        connections := [("\\A", [bit "\\x2"]), ("\\B", [bit "\\y2"]),
                        ("\\Y", [.wire "$auto2" 0])], equivMerged := [] }],
    conns := [([bit "\\o2"], [bit "\\o1"])],
    freshCounter := 4 }

theorem c2_amended_mutation_counts_witness :
    purgeStep idBit [bit "\\w"] [purgeDemoCell] =
      some ([], 1, [Event.purged "\\pe"]) ∧
    ([] : List Cell).length + 1 = [purgeDemoCell].length ∧
    mergeCellPair designT idBit c2module "\\c1" "\\c2" = some c2mergedModule ∧
    c2mergedModule.cells.length + 1 = c2module.cells.length +
      [(bit "\\x1", bit "\\y1"), (bit "\\x2", bit "\\y2")].length :=
  ⟨rfl,
   c2_amended_mutation_counts.1 idBit [bit "\\w"] [purgeDemoCell] [] 1
     [Event.purged "\\pe"] rfl,
   rfl,
   c2_amended_mutation_counts.2 designT idBit c2module c2mergedModule
     "\\c1" "\\c2" c2goldCell c2gateCell
     [(bit "\\x1", bit "\\y1"), (bit "\\x2", bit "\\y2")]
     (by decide) rfl rfl rfl rfl⟩

/-- C3 counterexample: in one worker iteration the forward phase merges
two distinct fingerprint groups (`\a1`/`\a2` and then `\b1`/`\b2`,
mutation count 2): the iteration does not stop after the first merge,
because the mutation check (line 226) sits after the whole phase loop,
not inside it. -/
theorem c3_counterexample :
    (workerFn designAB idSig c3module false false).map (fun r => (r.2.1, r.2.2)) =
      some (2, [Event.merged 0 "\\a1" "\\a2", Event.merged 0 "\\b1" "\\b2"]) :=
  rfl

/-- C4 counterexample: the module contains exactly one `$equiv` cell —
its operands canonicalize to the same wire and its output is that same
wire — and the purge scan removes it (mutation count 1) even though no
*other* assertion's operand set mentions the output: `equiv_inputs`
(lines 131-132) also holds the cell's own operands. -/
theorem c4_counterexample :
    (workerFn designAB idSig c4module false false).map
        (fun r => (r.1.cells, r.2.1, r.2.2)) =
      some ([], 1, [Event.purged "\\e"]) ∧
    (c4module.cells.filter (fun c => c.type == "$equiv")).length = 1 :=
  ⟨rfl, rfl⟩

/-- C4 amended: the purge path of the worker is exactly a filter by the
purge condition — an `$equiv` cell is removed iff its two canonical
operands are equal and its canonical output bit lies in the operand pool
collected from *all* assertions (`st.inputs`, which can include the
cell's own operands — not only "some other" assertion's), the mutation
count is exactly the number of removed cells, and nothing else in the
module (other cells, connections, the fresh counter) changes. -/
theorem c4_amended_purge_characterization (d : Design)
    (sigmapOf : Module → SigBit → SigBit) (m : Module) (mf mi : Bool)
    (st : ScanState) (kept : List Cell) (n : Nat) (lg : List Event)
    (hscan : scanEquivs d (sigmapOf m) mi m.cells ⟨[], [], []⟩ = some st)
    (hpurge : purgeStep (sigmapOf m) st.inputs m.cells = some (kept, n, lg))
    (hn : 0 < n) :
    workerFn d sigmapOf m mf mi =
      some ({ m with cells :=
                m.cells.filter (fun c => !(purgeCond (sigmapOf m) st.inputs c)) },
            (m.cells.filter (purgeCond (sigmapOf m) st.inputs)).length,
            (m.cells.filter (purgeCond (sigmapOf m) st.inputs)).map
              (fun c => Event.purged c.name)) := by
  obtain ⟨h1, h2, h3⟩ :=
    purgeStep_characterization (sigmapOf m) st.inputs m.cells kept n lg hpurge
  simp only [workerFn, hscan, hpurge]
  rw [if_pos hn]
  rw [h1, h2, h3]

/-- The scan state of `c4module`. -/
def c4scanState : ScanState :=
  { pairs := [(bit "\\w", bit "\\w")], inputs := [bit "\\w"], names := ["\\e"] }

theorem c4_amended_purge_characterization_witness :
    scanEquivs designAB (idSig c4module) false c4module.cells ⟨[], [], []⟩ =
      some c4scanState ∧
    purgeStep (idSig c4module) c4scanState.inputs c4module.cells =
      some ([], 1, [Event.purged "\\e"]) ∧
    workerFn designAB idSig c4module false false =
      some ({ c4module with cells := c4module.cells.filter (fun c => !(purgeCond (idSig c4module) c4scanState.inputs c)) },
            (c4module.cells.filter (purgeCond (idSig c4module) c4scanState.inputs)).length,
            (c4module.cells.filter (purgeCond (idSig c4module) c4scanState.inputs)).map
              (fun c => Event.purged c.name)) :=
  ⟨rfl, rfl,
   c4_amended_purge_characterization designAB idSig c4module false false
     c4scanState [] 1 [Event.purged "\\e"] rfl rfl (by decide)⟩

/-- C5: if for every port the gate cell exposes a same-width port and
every *input* port's canonicalized connections agree bitwise, then the
diff list is empty, and `merge_cell_pair` is a pure deduplication: the
result has no new `$equiv` cell and no fresh wire (the cell list is
exactly the original with the gate removed and the gold rewritten, the
fresh counter is unchanged), each of the gate's output signals becomes
driven by the gold's corresponding output (`gateConns`), the gold cell's
rewrite is a no-op beyond alias canonicalization of its input bits, and
the gate cell is gone from the result. -/
theorem c5_exact_duplicate_merge (d : Design) (sigmap : SigBit → SigBit)
    (m : Module) (gn tn : IdString) (a b : Cell)
    (ha : m.cellByName gn = some a) (hb : m.cellByName tn = some b)
    (hports : ∀ pc ∈ a.connections,
      ∃ s', b.getPort pc.1 = some s' ∧ s'.length = pc.2.length ∧
        (cellOutput d a.type pc.1 = false → s'.map sigmap = pc.2.map sigmap)) :
    collectDiffs d sigmap a b = some [] ∧
    mergeCellPair d sigmap m gn tn = some
      { cells := (m.cells.map (fun c =>
          if c.name == gn then mergedGold d sigmap m.freshCounter a b [] else c)).filter
            (fun c => !(c.name == tn)),
        conns := m.conns ++ gateConns d a b,
        freshCounter := m.freshCounter } ∧
    (mergedGold d sigmap m.freshCounter a b []).connections =
      a.connections.map (fun pc =>
        if cellOutput d a.type pc.1 then pc else (pc.1, pc.2.map sigmap)) ∧
    ∀ c ∈ (m.cells.map (fun c =>
        if c.name == gn then mergedGold d sigmap m.freshCounter a b [] else c)).filter
          (fun c => !(c.name == tn)), ¬ c.name = tn := by
  have hd : collectDiffs d sigmap a b = some [] := by
    rw [collectDiffs_eq d sigmap a b (fun pc hpc =>
      ⟨(hports pc hpc).choose, (hports pc hpc).choose_spec.1,
        (hports pc hpc).choose_spec.2.1⟩)]
    congr 1
    apply flatMap_all_nil
    intro pc hpc
    by_cases hout : cellOutput d a.type pc.1 = true
    · rw [if_pos hout]
    · rw [if_neg hout]
      obtain ⟨s', hgp, hlen, heqm⟩ := hports pc hpc
      rw [hgp, Option.getD_some, heqm (by simpa using hout)]
      exact diffBits_self _
  refine ⟨hd, ?_, ?_, ?_⟩
  · simp only [mergeCellPair, ha, hb, hd]
    simp [newEquivCells]
  · simp only [mergedGold]
    apply List.map_congr_left
    intro pc hpc
    by_cases hout : cellOutput d a.type pc.1 = true
    · rw [if_pos hout, if_pos hout]
    · rw [if_neg hout, if_neg hout]
      have : ∀ bb ∈ pc.2, applySub (mergeSub m.freshCounter []) (sigmap bb) = sigmap bb := by
        intro bb _
        simp [mergeSub, applySub]
      rw [List.map_congr_left this]
  · intro c hc
    have := List.of_mem_filter hc
    simpa using this

/-- The gold cell of `c5module`. -/
def c5goldCell : Cell :=
  { name := "\\g", type := "\\T", parameters := [],
    connections := [("\\A", [bit "\\x"]), ("\\Y", [bit "\\o1"])],
    equivMerged := [] }

/-- The gate cell of `c5module`: identical inputs, distinct output
wire. -/
def c5gateCell : Cell :=
  { name := "\\h", type := "\\T", parameters := [],
    connections := [("\\A", [bit "\\x"]), ("\\Y", [bit "\\o2"])],
    equivMerged := [] }

/-- A module holding exactly the two duplicate cells. -/
def c5module : Module :=
  { cells := [c5goldCell, c5gateCell], conns := [], freshCounter := 0 }

theorem c5_exact_duplicate_merge_witness :
    c5module.cellByName "\\g" = some c5goldCell ∧
    c5module.cellByName "\\h" = some c5gateCell ∧
    collectDiffs designT idBit c5goldCell c5gateCell = some [] ∧
    (mergeCellPair designT idBit c5module "\\g" "\\h").isSome = true := by
  have hports : ∀ pc ∈ c5goldCell.connections,
      ∃ s', c5gateCell.getPort pc.1 = some s' ∧ s'.length = pc.2.length ∧
        (cellOutput designT c5goldCell.type pc.1 = false →
          s'.map idBit = pc.2.map idBit) := by
    intro pc hpc
    simp only [c5goldCell, List.mem_cons] at hpc
    rcases hpc with h | h | h
    · subst h
      exact ⟨[bit "\\x"], rfl, rfl, fun _ => rfl⟩
    · subst h
      exact ⟨[bit "\\o2"], rfl, rfl, fun hf => absurd hf (by decide)⟩
    · simp at h
  have hthm := c5_exact_duplicate_merge designT idBit c5module "\\g" "\\h"
    c5goldCell c5gateCell rfl rfl hports
  refine ⟨rfl, rfl, hthm.1, ?_⟩
  rw [hthm.2.1]
  rfl

/-- C6: if the two cells expose same-width ports throughout and their
canonicalized inputs differ in exactly one bit — the port `p₀` bit
where the gold cell reads `x` and the gate cell reads `y` — then the
diff list is exactly `[(x, y)]`; `merge_cell_pair` inserts exactly one
new `$equiv` cell whose first operand is the gold bit `x`, second
operand the gate bit `y`, and output the freshly allocated wire (the
module's next fresh identifier); and the gold cell's input ports are
rewritten so that exactly the bits canonicalizing to `x` or `y` now read
the fresh `$equiv` output. -/
theorem c6_single_mismatch_merge (d : Design) (sigmap : SigBit → SigBit)
    (m : Module) (gn tn : IdString) (a b : Cell) (p₀ : IdString) (x y : SigBit)
    (ha : m.cellByName gn = some a) (hb : m.cellByName tn = some b)
    (hw : ∀ pc ∈ a.connections,
      ∃ s', b.getPort pc.1 = some s' ∧ s'.length = pc.2.length)
    (hnd : (a.connections.map Prod.fst).Nodup)
    (hp0mem : p₀ ∈ a.connections.map Prod.fst)
    (hp0in : cellOutput d a.type p₀ = false)
    (hdiffs : ∀ pc ∈ a.connections, cellOutput d a.type pc.1 = false →
      diffBits (pc.2.map sigmap) (((b.getPort pc.1).getD []).map sigmap) =
        if pc.1 = p₀ then [(x, y)] else []) :
    collectDiffs d sigmap a b = some [(x, y)] ∧
    newEquivCells m.freshCounter [(x, y)] =
      [mkEquivCell (newName m.freshCounter) (newName (m.freshCounter + 1)) x y] ∧
    mergeCellPair d sigmap m gn tn = some
      { cells := (m.cells.map (fun c =>
          if c.name == gn then mergedGold d sigmap m.freshCounter a b [(x, y)] else c)).filter
            (fun c => !(c.name == tn)) ++
          [mkEquivCell (newName m.freshCounter) (newName (m.freshCounter + 1)) x y],
        conns := m.conns ++ gateConns d a b,
        freshCounter := m.freshCounter + 2 } ∧
    (mergedGold d sigmap m.freshCounter a b [(x, y)]).connections =
      a.connections.map (fun pc =>
        if cellOutput d a.type pc.1 then pc
        else (pc.1, pc.2.map (fun bb =>
          if sigmap bb = x ∨ sigmap bb = y then
            SigBit.wire (newName m.freshCounter) 0
          else sigmap bb))) := by
  have hd : collectDiffs d sigmap a b = some [(x, y)] := by
    rw [collectDiffs_eq d sigmap a b hw]
    congr 1
    apply flatMap_single_key _ p₀ [(x, y)] a.connections ?hne ?heq hp0mem hnd
    case hne =>
      intro pc hpc hne
      by_cases hout : cellOutput d a.type pc.1 = true
      · rw [if_pos hout]
      · rw [if_neg hout, hdiffs pc hpc (by simpa using hout), if_neg hne]
    case heq =>
      intro pc hpc hpe
      have hout : cellOutput d a.type pc.1 = false := by rw [hpe]; exact hp0in
      rw [if_neg (by simp [hout]), hdiffs pc hpc hout, if_pos hpe]
  refine ⟨hd, by simp [newEquivCells], ?_, ?_⟩
  · simp only [mergeCellPair, ha, hb, hd]
    simp [newEquivCells]
  · simp only [mergedGold]
    apply List.map_congr_left
    intro pc hpc
    by_cases hout : cellOutput d a.type pc.1 = true
    · rw [if_pos hout, if_pos hout]
    · rw [if_neg hout, if_neg hout]
      have hsub : mergeSub m.freshCounter [(x, y)] =
          [(x, SigBit.wire (newName m.freshCounter) 0),
           (y, SigBit.wire (newName m.freshCounter) 0)] := by
        simp [mergeSub]
      have : ∀ bb ∈ pc.2, applySub (mergeSub m.freshCounter [(x, y)]) (sigmap bb) =
          if sigmap bb = x ∨ sigmap bb = y then
            SigBit.wire (newName m.freshCounter) 0
          else sigmap bb := by
        intro bb _
        rw [hsub, applySub_pair]
      rw [List.map_congr_left this]

/-- The gold cell of `c6module`. -/
def c6goldCell : Cell :=
  { name := "\\g", type := "\\T", parameters := [],
    connections := [("\\A", [bit "\\x"]), ("\\Y", [bit "\\o1"])],
    equivMerged := [] }

/-- The gate cell of `c6module`: input differs in its single bit. -/
def c6gateCell : Cell :=
  { name := "\\h", type := "\\T", parameters := [],
    connections := [("\\A", [bit "\\z"]), ("\\Y", [bit "\\o2"])],
    equivMerged := [] }

/-- A module holding the two cells differing in exactly one input
bit. -/
def c6module : Module :=
  { cells := [c6goldCell, c6gateCell], conns := [], freshCounter := 0 }

theorem c6_single_mismatch_merge_witness :
    c6module.cellByName "\\g" = some c6goldCell ∧
    c6module.cellByName "\\h" = some c6gateCell ∧
    collectDiffs designT idBit c6goldCell c6gateCell =
      some [(bit "\\x", bit "\\z")] ∧
    (mergeCellPair designT idBit c6module "\\g" "\\h").isSome = true := by
  have hw : ∀ pc ∈ c6goldCell.connections,
      ∃ s', c6gateCell.getPort pc.1 = some s' ∧ s'.length = pc.2.length := by
    intro pc hpc
    simp only [c6goldCell, List.mem_cons] at hpc
    rcases hpc with h | h | h
    · subst h; exact ⟨[bit "\\z"], rfl, rfl⟩
    · subst h; exact ⟨[bit "\\o2"], rfl, rfl⟩
    · simp at h
  have hdiffs : ∀ pc ∈ c6goldCell.connections,
      cellOutput designT c6goldCell.type pc.1 = false →
      diffBits (pc.2.map idBit) (((c6gateCell.getPort pc.1).getD []).map idBit) =
        if pc.1 = "\\A" then [(bit "\\x", bit "\\z")] else [] := by
    intro pc hpc hout
    simp only [c6goldCell, List.mem_cons] at hpc
    rcases hpc with h | h | h
    · subst h; decide
    · subst h; exact absurd hout (by decide)
    · simp at h
  have hthm := c6_single_mismatch_merge designT idBit c6module "\\g" "\\h"
    c6goldCell c6gateCell "\\A" (bit "\\x") (bit "\\z") rfl rfl hw
    (by decide) (by decide) (by decide) hdiffs
  refine ⟨rfl, rfl, hthm.1, ?_⟩
  rw [hthm.2.2.1]
  rfl

/-- C7: the fatal width assertion of `merge_cell_pair` (line 72, and the
implicit port-existence assertion of `getPort` at line 70) cannot fire
for cells grouped under an equal fingerprint.  Both fingerprint kinds —
the forward key and every backward key — carry the sorted port-size list
`keySizes`, so grouped cells agree on it (first conjunct); and whenever
two cells with duplicate-free port names agree on `keySizes`, the
port-diff loop `collectDiffs` (which models those assertions by
returning `none` when one fires) succeeds (second conjunct). -/
theorem c7_width_assert_never_fires (d : Design) (sigmap equivBits : SigBit → SigBit)
    (a b : Cell)
    (hndb : (b.connections.map Prod.fst).Nodup) :
    ((fwdKeyOf d equivBits a = fwdKeyOf d equivBits b ∨
        ∃ k, k ∈ bwdKeysOf d equivBits a ∧ k ∈ bwdKeysOf d equivBits b) →
      keySizes a = keySizes b) ∧
    (keySizes a = keySizes b → (collectDiffs d sigmap a b).isSome = true) := by
  have hbwd : ∀ (c : Cell) (k : MergeKey), k ∈ bwdKeysOf d equivBits c →
      k.port_sizes = keySizes c := by
    intro c k hk
    simp only [bwdKeysOf, List.mem_flatMap] at hk
    obtain ⟨pc, hpc, hk⟩ := hk
    split at hk
    · obtain ⟨iv, hiv, hkk⟩ := List.mem_map.mp hk
      rw [← hkk]
    · simp at hk
  constructor
  · rintro (hf | ⟨k, hka, hkb⟩)
    · have := congrArg MergeKey.port_sizes hf
      simpa [fwdKeyOf] using this
    · rw [← hbwd a k hka, hbwd b k hkb]
  · intro hsz
    have hperm : (a.connections.map (fun pc => (pc.1, pc.2.length))).Perm
        (b.connections.map (fun pc => (pc.1, pc.2.length))) := by
      have pa := sortBy_perm pairLe (a.connections.map (fun pc => (pc.1, pc.2.length)))
      have pb := sortBy_perm pairLe (b.connections.map (fun pc => (pc.1, pc.2.length)))
      refine pa.symm.trans ?_
      rw [show sortBy pairLe (a.connections.map (fun pc => (pc.1, pc.2.length))) =
          sortBy pairLe (b.connections.map (fun pc => (pc.1, pc.2.length))) from hsz]
      exact pb
    have hget : ∀ pc ∈ a.connections,
        ∃ s', b.getPort pc.1 = some s' ∧ s'.length = pc.2.length := by
      intro pc hpc
      have hmem : (pc.1, pc.2.length) ∈
          b.connections.map (fun pc => (pc.1, pc.2.length)) :=
        hperm.mem_iff.mp (List.mem_map_of_mem _ hpc)
      obtain ⟨pc', hpc', heq⟩ := List.mem_map.mp hmem
      have h1 : pc'.1 = pc.1 := (Prod.ext_iff.mp heq).1
      have h2 : pc'.2.length = pc.2.length := (Prod.ext_iff.mp heq).2
      refine ⟨pc'.2, ?_, h2⟩
      have hin : (pc.1, pc'.2) ∈ b.connections := by
        rw [← h1]
        exact hpc'
      have hfind := find_nodup_keys b.connections pc.1 pc'.2 hndb hin
      rw [Cell.getPort, hfind]
      rfl
    rw [collectDiffs_eq d sigmap a b hget]
    rfl

theorem c7_width_assert_never_fires_witness :
    keySizes c5goldCell = keySizes c5gateCell ∧
    (collectDiffs designT idBit c5goldCell c5gateCell).isSome = true :=
  ⟨rfl,
   (c7_width_assert_never_fires designT idBit idBit c5goldCell c5gateCell
     (by decide)).2 rfl⟩

theorem mem_insertIfAbsent [DecidableEq α] (l : List α) (x s : α) :
    s ∈ insertIfAbsent l x ↔ s ∈ l ∨ s = x := by
  unfold insertIfAbsent
  by_cases h : x ∈ l
  · rw [if_pos h]
    constructor
    · exact Or.inl
    · rintro (hs | rfl)
      · exact hs
      · exact h
  · rw [if_neg h]
    simp

theorem mem_unionStr (s : String) :
    ∀ (l base : List String), s ∈ unionStr base l ↔ s ∈ base ∨ s ∈ l
  | [], base => by simp [unionStr]
  | x :: xs, base => by
    show s ∈ unionStr (insertIfAbsent base x) xs ↔ _
    rw [mem_unionStr s xs (insertIfAbsent base x), mem_insertIfAbsent]
    simp only [List.mem_cons]
    tauto

theorem find?_map_filter_of_find? (f : Cell → Cell) (g : Cell → Bool)
    (p : Cell → Bool) (a : Cell) :
    ∀ (l : List Cell), l.find? p = some a → (∀ c, p (f c) = p c) →
      g (f a) = true →
      ((l.map f).filter g).find? p = some (f a)
  | [] => by intro h _ _; simp at h
  | c :: rest => by
    intro h hp hg
    by_cases hc : p c = true
    · rw [List.find?_cons_of_pos _ hc] at h
      obtain rfl : c = a := Option.some.inj h
      have hpc : p (f c) = true := by rw [hp]; exact hc
      rw [List.map_cons, List.filter_cons, hg, if_pos rfl]
      exact List.find?_cons_of_pos _ hpc
    · rw [List.find?_cons_of_neg _ hc] at h
      have ih := find?_map_filter_of_find? f g p a rest h hp hg
      rw [List.map_cons, List.filter_cons]
      by_cases hgc : g (f c) = true
      · have hpc : ¬ p (f c) = true := by rw [hp]; exact hc
        rw [hgc, if_pos rfl, List.find?_cons_of_neg _ hpc]
        exact ih
      · rw [Bool.not_eq_true] at hgc
        rw [hgc]
        simp only [Bool.false_eq_true, if_false]
        exact ih

/-- C9: merging the gate cell into the gold cell replaces the gold
cell's provenance pool with the union of its previous pool, the gate
cell's pool, and the gate cell's printed name — so names of merged-away
cells accumulate transitively on the survivor even when a previous
survivor is itself later merged away. -/
theorem c9_provenance_accumulates (d : Design) (sigmap : SigBit → SigBit)
    (m m' : Module) (gn tn : IdString) (a b : Cell)
    (ha : m.cellByName gn = some a) (hb : m.cellByName tn = some b)
    (hmerge : mergeCellPair d sigmap m gn tn = some m')
    (hgt : gn ≠ tn) :
    ∃ a', m'.cellByName gn = some a' ∧
      ∀ s, s ∈ a'.equivMerged ↔
        (s ∈ a.equivMerged ∨ s ∈ b.equivMerged ∨ s = logId b.name) := by
  cases hd : collectDiffs d sigmap a b with
  | none => simp [mergeCellPair, ha, hb, hd] at hmerge
  | some diffs =>
    simp only [mergeCellPair, ha, hb, hd] at hmerge
    have hm := Option.some.inj hmerge
    subst hm
    have haname : a.name = gn := by simpa using List.find?_some ha
    have hp : ∀ c : Cell,
        ((fun c : Cell => c.name == gn)
          ((fun c => if c.name == gn then
              mergedGold d sigmap m.freshCounter a b diffs else c) c)) =
          (c.name == gn) := by
      intro c
      by_cases hc : (c.name == gn) = true
      · have hcn : c.name = gn := by simpa using hc
        simp [hc, mergedGold, haname, hcn]
      · simp [hc]
    have hfound := find?_map_filter_of_find?
      (fun c => if c.name == gn then mergedGold d sigmap m.freshCounter a b diffs else c)
      (fun c => !(c.name == tn)) (fun c => c.name == gn) a m.cells ha hp
      (by simp [mergedGold, haname, hgt])
    refine ⟨mergedGold d sigmap m.freshCounter a b diffs, ?_, ?_⟩
    · show (_ ++ newEquivCells m.freshCounter diffs).find? _ = _
      rw [List.find?_append, hfound]
      simp [haname]
    · intro s
      show s ∈ unionStr a.equivMerged
        (insertIfAbsent b.equivMerged (logId b.name)) ↔ _
      rw [mem_unionStr, mem_insertIfAbsent]

/-- The gold cell of `c9module`, carrying an older provenance entry. -/
def c9goldCell : Cell :=
  { name := "\\g", type := "\\T", parameters := [],
    connections := [("\\A", [bit "\\x"]), ("\\Y", [bit "\\o1"])],
    equivMerged := ["old"] }

/-- The gate cell of `c9module`, itself carrying a provenance entry from
an earlier merge. -/
def c9gateCell : Cell :=
  { name := "\\h", type := "\\T", parameters := [],
    connections := [("\\A", [bit "\\x"]), ("\\Y", [bit "\\o2"])],
    equivMerged := ["prev"] }

/-- A module with two duplicate cells both carrying provenance. -/
def c9module : Module :=
  { cells := [c9goldCell, c9gateCell], conns := [], freshCounter := 0 }

/-- The merge result on `c9module`: the survivor's pool is
`["old", "prev", "h"]`. -/
def c9mergedModule : Module :=
  { cells := [
      { name := "\\g", type := "\\T", parameters := [],
        connections := [("\\A", [bit "\\x"]), ("\\Y", [bit "\\o1"])],
        equivMerged := ["old", "prev", "h"] }],
    conns := [([bit "\\o2"], [bit "\\o1"])],
    freshCounter := 0 }

theorem c9_provenance_accumulates_witness :
    mergeCellPair designT idBit c9module "\\g" "\\h" = some c9mergedModule ∧
    ∃ a', c9mergedModule.cellByName "\\g" = some a' ∧
      ∀ s, s ∈ a'.equivMerged ↔
        (s ∈ c9goldCell.equivMerged ∨ s ∈ c9gateCell.equivMerged ∨
          s = logId c9gateCell.name) :=
  ⟨rfl,
   c9_provenance_accumulates designT idBit c9module c9mergedModule
     "\\g" "\\h" c9goldCell c9gateCell rfl rfl rfl (by decide)⟩

/-- An `$equiv` cell is well formed for the pass when each of `\A`,
`\B`, `\Y` is connected and exactly one bit wide (`as_bit` succeeds on
all three). -/
def wfEquivCell (c : Cell) : Bool :=
  (getBit c "\\A").isSome && (getBit c "\\B").isSome && (getBit c "\\Y").isSome

theorem scanEquivs_none (d : Design) (sigmap : SigBit → SigBit) (mi : Bool)
    (c : Cell) (hty : c.type = "$equiv")
    (hbad : getBit c "\\A" = none ∨ getBit c "\\B" = none) :
    ∀ (cells : List Cell) (st : ScanState), c ∈ cells →
      scanEquivs d sigmap mi cells st = none
  | [], st => by intro hmem; simp at hmem
  | e :: rest, st => by
    intro hmem
    rcases List.mem_cons.mp hmem with rfl | hmem'
    · simp only [scanEquivs, hty]
      rw [if_pos (by simp)]
      rcases hbad with h | h
      · rw [h]
      · rw [h]
        cases getBit c "\\A" <;> rfl
    · simp only [scanEquivs]
      by_cases het : (e.type == "$equiv") = true
      · rw [if_pos het]
        cases hA : getBit e "\\A" with
        | none => rfl
        | some ab =>
          cases hB : getBit e "\\B" with
          | none => rfl
          | some bb => exact scanEquivs_none d sigmap mi c hty hbad rest _ hmem'
      · rw [if_neg het]
        by_cases hin : (mi || d.moduleNames.contains e.type) = true
        · rw [if_pos hin]
          exact scanEquivs_none d sigmap mi c hty hbad rest _ hmem'
        · rw [if_neg hin]
          exact scanEquivs_none d sigmap mi c hty hbad rest _ hmem'

theorem purgeStep_none (sigmap : SigBit → SigBit) (inputs : List SigBit)
    (c : Cell) (hty : c.type = "$equiv")
    (hbad : getBit c "\\A" = none ∨ getBit c "\\B" = none ∨ getBit c "\\Y" = none) :
    ∀ (cells : List Cell), c ∈ cells →
      purgeStep sigmap inputs cells = none
  | [] => by intro hmem; simp at hmem
  | e :: rest => by
    intro hmem
    rcases List.mem_cons.mp hmem with rfl | hmem'
    · simp only [purgeStep]
      rw [if_pos (by simp [hty])]
      rcases hbad with h | h | h
      · rw [h]
      · rw [h]
        cases getBit c "\\A" <;> rfl
      · rw [h]
        cases getBit c "\\A" <;> cases getBit c "\\B" <;> rfl
    · have ih := purgeStep_none sigmap inputs c hty hbad rest hmem'
      simp only [purgeStep, ih]
      by_cases het : (e.type == "$equiv") = true
      · rw [if_pos het]
        cases getBit e "\\A" <;> cases getBit e "\\B" <;> cases getBit e "\\Y" <;> rfl
      · rw [if_neg het]

/-- C10: the pass assumes single-bit `$equiv` ports.  First conjunct:
if any `$equiv` cell of the module has a missing or multi-bit `\A`,
`\B`, or `\Y` port, the worker aborts fatally (the `as_bit` reads of the
scans, modelled by `none`).  Second conjunct: every cell that
`merge_cell_pair` adds to the module (any result cell whose name did not
exist before) is an `$equiv` cell with single-bit `\A`, `\B`, and `\Y`
ports. -/
theorem c10_equiv_single_bit :
    (∀ (d : Design) (sigmapOf : Module → SigBit → SigBit) (m : Module)
       (mf mi : Bool) (c : Cell),
       c ∈ m.cells → c.type = "$equiv" → wfEquivCell c = false →
       workerFn d sigmapOf m mf mi = none) ∧
    (∀ (d : Design) (sigmap : SigBit → SigBit) (m m' : Module)
       (gn tn : IdString),
       mergeCellPair d sigmap m gn tn = some m' →
       ∀ c ∈ m'.cells, c.name ∉ m.cells.map Cell.name →
         c.type = "$equiv" ∧ ∃ ab bb yn,
           c.connections = [("\\A", [ab]), ("\\B", [bb]),
                            ("\\Y", [SigBit.wire yn 0])]) := by
  constructor
  · intro d sigmapOf m mf mi c hmem hty hwf
    have hnone : getBit c "\\A" = none ∨ getBit c "\\B" = none ∨
        getBit c "\\Y" = none := by
      by_contra hcon
      push_neg at hcon
      obtain ⟨h1, h2, h3⟩ := hcon
      have s1 : (getBit c "\\A").isSome = true := Option.ne_none_iff_isSome.mp h1
      have s2 : (getBit c "\\B").isSome = true := Option.ne_none_iff_isSome.mp h2
      have s3 : (getBit c "\\Y").isSome = true := Option.ne_none_iff_isSome.mp h3
      rw [wfEquivCell, s1, s2, s3] at hwf
      simp at hwf
    by_cases hab : getBit c "\\A" = none ∨ getBit c "\\B" = none
    · have hscan := scanEquivs_none d (sigmapOf m) mi c hty hab m.cells
        ⟨[], [], []⟩ hmem
      simp [workerFn, hscan]
    · have hy : getBit c "\\Y" = none := by
        rcases hnone with h | h | h
        · exact absurd (Or.inl h) hab
        · exact absurd (Or.inr h) hab
        · exact h
      cases hscan : scanEquivs d (sigmapOf m) mi m.cells ⟨[], [], []⟩ with
      | none => simp [workerFn, hscan]
      | some st =>
        have hpurge := purgeStep_none (sigmapOf m) st.inputs c hty
          (Or.inr (Or.inr hy)) m.cells hmem
        simp [workerFn, hscan, hpurge]
  · intro d sigmap m m' gn tn hmerge c hc hnotin
    cases hga : m.cellByName gn with
    | none => simp [mergeCellPair, hga] at hmerge
    | some a =>
      cases hgb : m.cellByName tn with
      | none => simp [mergeCellPair, hga, hgb] at hmerge
      | some b =>
        cases hd : collectDiffs d sigmap a b with
        | none => simp [mergeCellPair, hga, hgb, hd] at hmerge
        | some diffs =>
          simp only [mergeCellPair, hga, hgb, hd] at hmerge
          have hm := Option.some.inj hmerge
          subst hm
          rcases List.mem_append.mp hc with hl | hr
          · exfalso
            apply hnotin
            have hmap := List.mem_of_mem_filter hl
            obtain ⟨c0, hc0, hfc0⟩ := List.mem_map.mp hmap
            have haname : a.name = gn := by simpa using List.find?_some hga
            have : c.name = c0.name := by
              rw [← hfc0]
              by_cases h0 : (c0.name == gn) = true
              · have : c0.name = gn := by simpa using h0
                simp [h0, mergedGold, haname, this]
              · simp [h0]
            rw [this]
            exact List.mem_map_of_mem _ hc0
          · simp only [newEquivCells, List.mem_map] at hr
            obtain ⟨ipr, hipr, hcc⟩ := hr
            subst hcc
            exact ⟨rfl, ipr.2.1, ipr.2.2, newName (m.freshCounter + 2 * ipr.1), rfl⟩

/-- A module whose single `$equiv` cell has a two-bit `\A` port. -/
def c10badModule : Module :=
  { cells := [
      { name := "\\e", type := "$equiv", parameters := [],
        connections := [("\\A", [bit "\\x", bit "\\y"]), ("\\B", [bit "\\x"]),
                        ("\\Y", [bit "\\o"])], equivMerged := [] }],
    conns := [], freshCounter := 0 }

/-- The merge result on `c6module` (one differing input bit, so one
fresh `$equiv` cell named `$auto1`). -/
def c6mergedModule : Module :=
  { cells := [
      { name := "\\g", type := "\\T", parameters := [],
        connections := [("\\A", [.wire "$auto0" 0]), ("\\Y", [bit "\\o1"])],
        equivMerged := ["h"] },
      { name := "$auto1", type := "$equiv", parameters := [],
        connections := [("\\A", [bit "\\x"]), ("\\B", [bit "\\z"]),
                        ("\\Y", [.wire "$auto0" 0])], equivMerged := [] }],
    conns := [([bit "\\o2"], [bit "\\o1"])],
    freshCounter := 2 }

theorem c10_equiv_single_bit_witness :
    workerFn designT idSig c10badModule false false = none ∧
    mergeCellPair designT idBit c6module "\\g" "\\h" = some c6mergedModule ∧
    ((Module.cells c6mergedModule).get? 1 = some
      { name := "$auto1", type := "$equiv", parameters := [],
        connections := [("\\A", [bit "\\x"]), ("\\B", [bit "\\z"]),
                        ("\\Y", [.wire "$auto0" 0])], equivMerged := [] }) ∧
    ({ name := "$auto1", type := "$equiv", parameters := [],
       connections := [("\\A", [bit "\\x"]), ("\\B", [bit "\\z"]),
                       ("\\Y", [SigBit.wire "$auto0" 0])],
       equivMerged := [] } : Cell).type = "$equiv" ∧
    ∃ ab bb yn,
      ({ name := "$auto1", type := "$equiv", parameters := [],
         connections := [("\\A", [bit "\\x"]), ("\\B", [bit "\\z"]),
                         ("\\Y", [SigBit.wire "$auto0" 0])],
         equivMerged := [] } : Cell).connections =
        [("\\A", [ab]), ("\\B", [bb]), ("\\Y", [SigBit.wire yn 0])] :=
  ⟨c10_equiv_single_bit.1 designT idSig c10badModule false false
     { name := "\\e", type := "$equiv", parameters := [],
       connections := [("\\A", [bit "\\x", bit "\\y"]), ("\\B", [bit "\\x"]),
                       ("\\Y", [bit "\\o"])], equivMerged := [] }
     (by simp [c10badModule]) rfl rfl,
   rfl, rfl,
   c10_equiv_single_bit.2 designT idBit c6module c6mergedModule "\\g" "\\h" rfl
     { name := "$auto1", type := "$equiv", parameters := [],
       connections := [("\\A", [bit "\\x"]), ("\\B", [bit "\\z"]),
                       ("\\Y", [SigBit.wire "$auto0" 0])], equivMerged := [] }
     (by simp [c6mergedModule]) (by decide)⟩

theorem mergeAll_facts (d : Design) (sigmap : SigBit → SigBit) (phase : Nat)
    (goldName : IdString) :
    ∀ (gates : List Cell) (m m' : Module) (n : Nat) (lg : List Event),
      mergeAll d sigmap phase goldName m gates = some (m', n, lg) →
      n = gates.length ∧ (∀ e ∈ lg, ∃ g t, e = Event.merged phase g t) ∧
        (gates = [] → m' = m ∧ lg = [])
  | [], m, m', n, lg => by
    intro h
    simp only [mergeAll, Option.some.injEq, Prod.mk.injEq] at h
    refine ⟨h.2.1.symm, ?_, fun _ => ⟨h.1.symm, h.2.2.symm⟩⟩
    rw [← h.2.2]
    simp
  | g :: rest, m, m', n, lg => by
    intro h
    simp only [mergeAll] at h
    cases hmp : mergeCellPair d sigmap m goldName g.name with
    | none => rw [hmp] at h; exact absurd h (by simp)
    | some m1 =>
      simp only [hmp] at h
      cases hma : mergeAll d sigmap phase goldName m1 rest with
      | none => simp only [hmp, hma] at h; exact absurd h (by simp)
      | some r =>
        obtain ⟨m2, n2, lg2⟩ := r
        simp only [hma] at h
        simp only [Option.some.injEq, Prod.mk.injEq] at h
        obtain ⟨ih1, ih2, -⟩ := mergeAll_facts d sigmap phase goldName rest m1 m2 n2 lg2 hma
        refine ⟨?_, ?_, by intro hc; cases hc⟩
        · rw [← h.2.1, ih1]
          rfl
        · intro e he
          rw [← h.2.2] at he
          rcases List.mem_cons.mp he with rfl | he'
          · exact ⟨goldName, g.name, rfl⟩
          · exact ih2 e he'

theorem processKey_facts (d : Design) (sigmap : SigBit → SigBit) (phase : Nat)
    (m : Module) (names : List IdString) (m' : Module) (n : Nat) (lg : List Event)
    (h : processKey d sigmap phase m names = some (m', n, lg)) :
    (∀ e ∈ lg, ∃ g t, e = Event.merged phase g t) ∧
      (n = 0 → m' = m ∧ lg = []) := by
  rw [processKey] at h
  by_cases hl : (names.filterMap m.cellByName).length < 2
  · rw [if_pos hl] at h
    simp only [Option.some.injEq, Prod.mk.injEq] at h
    refine ⟨?_, fun _ => ⟨h.1.symm, h.2.2.symm⟩⟩
    rw [← h.2.2]
    simp
  · rw [if_neg hl] at h
    cases hg : selectGold (names.filterMap m.cellByName) with
    | none =>
      rw [hg] at h
      simp only [Option.some.injEq, Prod.mk.injEq] at h
      refine ⟨?_, fun _ => ⟨h.1.symm, h.2.2.symm⟩⟩
      rw [← h.2.2]
      simp
    | some gold =>
      rw [hg] at h
      obtain ⟨h1, h2, h3⟩ := mergeAll_facts d sigmap phase gold.name _ m m' n lg h
      refine ⟨h2, ?_⟩
      intro hn
      apply h3
      rw [hn] at h1
      exact (List.length_eq_zero.mp h1.symm)

theorem runPhase_facts (d : Design) (sigmap : SigBit → SigBit) (phase : Nat)
    (cache : List (MergeKey × List IdString)) :
    ∀ (ks : List MergeKey) (m m' : Module) (n : Nat) (lg : List Event),
      runPhase d sigmap phase cache ks m = some (m', n, lg) →
      (∀ e ∈ lg, ∃ g t, e = Event.merged phase g t) ∧
        (n = 0 → m' = m ∧ lg = [])
  | [], m, m', n, lg => by
    intro h
    simp only [runPhase, Option.some.injEq, Prod.mk.injEq] at h
    refine ⟨?_, fun _ => ⟨h.1.symm, h.2.2.symm⟩⟩
    rw [← h.2.2]
    simp
  | k :: ks, m, m', n, lg => by
    intro h
    simp only [runPhase] at h
    cases hpk : processKey d sigmap phase m (cacheNames cache k) with
    | none => simp only [hpk] at h; exact absurd h (by simp)
    | some r1 =>
      obtain ⟨m1, n1, l1⟩ := r1
      simp only [hpk] at h
      cases hrp : runPhase d sigmap phase cache ks m1 with
      | none => simp only [hpk, hrp] at h; exact absurd h (by simp)
      | some r2 =>
        obtain ⟨m2, n2, l2⟩ := r2
        simp only [hrp] at h
        simp only [Option.some.injEq, Prod.mk.injEq] at h
        obtain ⟨p1, p2⟩ := processKey_facts d sigmap phase m _ m1 n1 l1 hpk
        obtain ⟨q1, q2⟩ := runPhase_facts d sigmap phase cache ks m1 m2 n2 l2 hrp
        constructor
        · intro e he
          rw [← h.2.2] at he
          rcases List.mem_append.mp he with he' | he'
          · exact p1 e he'
          · exact q1 e he'
        · intro hn
          rw [← h.2.1] at hn
          have hn1 : n1 = 0 := by omega
          have hn2 : n2 = 0 := by omega
          obtain ⟨e1, e2⟩ := p2 hn1
          obtain ⟨f1, f2⟩ := q2 hn2
          subst e1
          refine ⟨by rw [← h.1, f1], ?_⟩
          rw [← h.2.2, e2, f2]
          rfl

/-- A worker reporting zero mutations leaves the module untouched. -/
theorem workerFn_zero_state (d : Design) (sigmapOf : Module → SigBit → SigBit)
    (m m' : Module) ( mode_fwd mode_icells : Bool) (lg : List Event)
    (h : workerFn d sigmapOf m mode_fwd mode_icells = some (m', 0, lg)) :
    m' = m := by
  rw [workerFn] at h
  cases hscan : scanEquivs d (sigmapOf m) mode_icells m.cells ⟨[], [], []⟩ with
  | none => rw [hscan] at h; exact absurd h (by simp)
  | some st =>
    simp only [hscan] at h
    cases hpurge : purgeStep (sigmapOf m) st.inputs m.cells with
    | none => simp only [hpurge] at h; exact absurd h (by simp)
    | some pr =>
      obtain ⟨kept, pc, plog⟩ := pr
      simp only [hpurge] at h
      by_cases hpc : 0 < pc
      · rw [if_pos hpc] at h
        simp only [Option.some.injEq, Prod.mk.injEq] at h
        omega
      · rw [if_neg hpc] at h
        cases hbuild : buildKeys d
            (fun b => chase st.pairs st.pairs.length (sigmapOf m b)) m st.names
            ⟨[], [], []⟩ with
        | none => simp only [hbuild] at h; exact absurd h (by simp)
        | some bs =>
          simp only [hbuild] at h
          cases hr0 : runPhase d (sigmapOf m) 0 bs.cache bs.fwdQ m with
          | none => simp only [hr0] at h; exact absurd h (by simp)
          | some r1 =>
            obtain ⟨m1, c1, l1⟩ := r1
            simp only [hr0] at h
            by_cases hc1 : 0 < c1
            · rw [if_pos hc1] at h
              simp only [Option.some.injEq, Prod.mk.injEq] at h
              omega
            · rw [if_neg hc1] at h
              cases hr1 : runPhase d (sigmapOf m) 1 bs.cache bs.bwdQ m1 with
              | none => simp only [hr1] at h; exact absurd h (by simp)
              | some r2 =>
                obtain ⟨m2, c2, l2⟩ := r2
                simp only [hr1] at h
                simp only [Option.some.injEq, Prod.mk.injEq] at h
                have hc2 : c2 = 0 := h.2.1
                have hm1 : m1 = m :=
                  ((runPhase_facts d (sigmapOf m) 0 bs.cache bs.fwdQ m m1 c1 l1
                    hr0).2 (by omega)).1
                have hm2 : m2 = m1 :=
                  ((runPhase_facts d (sigmapOf m) 1 bs.cache bs.bwdQ m1 m2 c2 l2
                    hr1).2 hc2).1
                rw [← h.1, hm2, hm1]

/-- C3 amended: the stop-on-mutation rule is at phase granularity, not
per merge.  For any worker run: if the purge phase mutated, no merge
event of either phase appears in the log (purging ends the iteration
before the merge phases), and if any forward-phase (0) merge occurred,
no backward-phase (1) merge occurs in the same iteration.  Within a
phase, however, later fingerprint groups are still processed after a
merge (`c3_counterexample` shows two groups merging in one forward
phase). -/
theorem c3_amended_phase_granularity (d : Design)
    (sigmapOf : Module → SigBit → SigBit) (m : Module) (mf mi : Bool)
    (m' : Module) (cnt : Nat) (lg : List Event)
    (h : workerFn d sigmapOf m mf mi = some (m', cnt, lg)) :
    (∀ nm, Event.purged nm ∈ lg → ∀ ph g t, Event.merged ph g t ∉ lg) ∧
    (∀ g t, Event.merged 0 g t ∈ lg → ∀ g' t', Event.merged 1 g' t' ∉ lg) := by
  rw [workerFn] at h
  cases hscan : scanEquivs d (sigmapOf m) mi m.cells ⟨[], [], []⟩ with
  | none => rw [hscan] at h; exact absurd h (by simp)
  | some st =>
    simp only [hscan] at h
    cases hpurge : purgeStep (sigmapOf m) st.inputs m.cells with
    | none => simp only [hpurge] at h; exact absurd h (by simp)
    | some pr =>
      obtain ⟨kept, pc, plog⟩ := pr
      simp only [hpurge] at h
      by_cases hpc : 0 < pc
      · rw [if_pos hpc] at h
        simp only [Option.some.injEq, Prod.mk.injEq] at h
        obtain ⟨-, -, hlg⟩ := h
        obtain ⟨-, -, hchar⟩ :=
          purgeStep_characterization (sigmapOf m) st.inputs m.cells kept pc plog hpurge
        have hallp : ∀ e ∈ lg, ∃ c : Cell, e = Event.purged c.name := by
          intro e he
          rw [← hlg, hchar] at he
          obtain ⟨c, -, hc⟩ := List.mem_map.mp he
          exact ⟨c, hc.symm⟩
        constructor
        · intro nm _ ph g t hmem
          obtain ⟨c, hc⟩ := hallp _ hmem
          cases hc
        · intro g t hmem
          obtain ⟨c, hc⟩ := hallp _ hmem
          cases hc
      · rw [if_neg hpc] at h
        cases hbuild : buildKeys d
            (fun b => chase st.pairs st.pairs.length (sigmapOf m b)) m st.names
            ⟨[], [], []⟩ with
        | none => simp only [hbuild] at h; exact absurd h (by simp)
        | some bs =>
          simp only [hbuild] at h
          cases hr0 : runPhase d (sigmapOf m) 0 bs.cache bs.fwdQ m with
          | none => simp only [hr0] at h; exact absurd h (by simp)
          | some r1 =>
            obtain ⟨m1, c1, l1⟩ := r1
            simp only [hr0] at h
            obtain ⟨ev0, z0⟩ :=
              runPhase_facts d (sigmapOf m) 0 bs.cache bs.fwdQ m m1 c1 l1 hr0
            by_cases hc1 : 0 < c1
            · rw [if_pos hc1] at h
              simp only [Option.some.injEq, Prod.mk.injEq] at h
              obtain ⟨-, -, hlg⟩ := h
              constructor
              · intro nm hp
                rw [← hlg] at hp
                obtain ⟨g, t, hgt⟩ := ev0 _ hp
                cases hgt
              · intro g t _ g' t' hmem
                rw [← hlg] at hmem
                obtain ⟨g2, t2, hgt⟩ := ev0 _ hmem
                cases hgt
            · rw [if_neg hc1] at h
              cases hr1 : runPhase d (sigmapOf m) 1 bs.cache bs.bwdQ m1 with
              | none => simp only [hr1] at h; exact absurd h (by simp)
              | some r2 =>
                obtain ⟨m2, c2, l2⟩ := r2
                simp only [hr1, Option.some.injEq, Prod.mk.injEq] at h
                obtain ⟨-, -, hlg⟩ := h
                obtain ⟨ev1, -⟩ :=
                  runPhase_facts d (sigmapOf m) 1 bs.cache bs.bwdQ m1 m2 c2 l2 hr1
                have hl1 : l1 = [] := (z0 (by omega)).2
                have hlg2 : lg = l2 := by rw [← hlg, hl1]; rfl
                constructor
                · intro nm hp
                  rw [hlg2] at hp
                  obtain ⟨g, t, hgt⟩ := ev1 _ hp
                  cases hgt
                · intro g t hmem
                  rw [hlg2] at hmem
                  obtain ⟨g2, t2, hgt⟩ := ev1 _ hmem
                  cases hgt

/-- The module state after the single worker iteration on
`c3module`. -/
def c3resultModule : Module :=
  { cells := [
      { name := "\\a1", type := "\\TA", parameters := [],
        connections := [("\\A", [bit "\\x"]), ("\\Y", [bit "\\p1"])],
        equivMerged := ["a2"] },
      { name := "\\b1", type := "\\TB", parameters := [],
        connections := [("\\A", [bit "\\x"]), ("\\Y", [bit "\\q1"])],
        equivMerged := ["b2"] }],
    conns := [([bit "\\p2"], [bit "\\p1"]), ([bit "\\q2"], [bit "\\q1"])],
    freshCounter := 0 }

theorem c3_amended_phase_granularity_witness :
    workerFn designAB idSig c3module false false =
      some (c3resultModule, 2,
        [Event.merged 0 "\\a1" "\\a2", Event.merged 0 "\\b1" "\\b2"]) ∧
    Event.merged 1 "\\g" "\\h" ∉
      [Event.merged 0 "\\a1" "\\a2", Event.merged 0 "\\b1" "\\b2"] :=
  ⟨rfl,
   (c3_amended_phase_granularity designAB idSig c3module false false
     c3resultModule 2
     [Event.merged 0 "\\a1" "\\a2", Event.merged 0 "\\b1" "\\b2"] rfl).2
     "\\a1" "\\a2" (by simp) "\\g" "\\h"⟩

/-- C8: if the per-module fixpoint loop of `EquivStructPass::execute`
terminates (a worker reported zero mutations within the fuel bound),
then a fresh worker instantiated on the resulting module — the first
worker of a second run of the pass — reports a mutation count of zero:
a worker with zero mutations changes nothing
(`workerFn_zero_state`), and the worker is a deterministic function of
the module state. -/
theorem c8_second_run_zero_mutations (d : Design)
    (sigmapOf : Module → SigBit → SigBit) ( mode_fwd mode_icells : Bool) :
    ∀ (fuel : Nat) (m mfinal : Module),
      executePass d sigmapOf mode_fwd mode_icells fuel m = some mfinal →
      (workerFn d sigmapOf mfinal mode_fwd mode_icells).map
        (fun r => r.2.1) = some 0
  | 0, m, mfinal => by
    intro h
    simp [executePass] at h
  | fuel + 1, m, mfinal => by
    intro h
    rw [executePass] at h
    cases hw : workerFn d sigmapOf m mode_fwd mode_icells with
    | none => rw [hw] at h; exact absurd h (by simp)
    | some r =>
      obtain ⟨m1, c, lgw⟩ := r
      simp only [hw] at h
      by_cases hc : c = 0
      · subst hc
        rw [if_pos rfl] at h
        obtain rfl : m1 = mfinal := Option.some.inj h
        have hmm : m1 = m := workerFn_zero_state d sigmapOf m m1
          mode_fwd mode_icells lgw hw
        rw [hmm, hw]
        rfl
      · rw [if_neg hc] at h
        exact c8_second_run_zero_mutations d sigmapOf mode_fwd mode_icells
          fuel m1 mfinal h

/-- The fixpoint of the pass on `c5module`. -/
def c5fixModule : Module :=
  { cells := [
      { name := "\\g", type := "\\T", parameters := [],
        connections := [("\\A", [bit "\\x"]), ("\\Y", [bit "\\o1"])],
        equivMerged := ["h"] }],
    conns := [([bit "\\o2"], [bit "\\o1"])],
    freshCounter := 0 }

theorem c8_second_run_zero_mutations_witness :
    executePass designT idSig false false 3 c5module = some c5fixModule ∧
    (workerFn designT idSig c5fixModule false false).map
      (fun r => r.2.1) = some 0 :=
  ⟨rfl,
   c8_second_run_zero_mutations designT idSig false false 3 c5module
     c5fixModule rfl⟩

end EquivStruct
